import Mathlib

/-!
# Verification of the chunkr-chat-app streaming decoder and UI helpers

This development gives a shallow embedding, in Lean 4, of the reproducible
core of the `lumina-ai-inc/chunkr-chat-app` web client:

* the streaming response decoder `handleStreamingResponse`
  (`apps/web/src/helpers` — the file that processes newline-delimited JSON
  frames, accumulates `response`-type content, attempts a full `JSON.parse`
  of the accumulated buffer and falls back to a regular-expression
  extraction of the `response` field when the buffer is a truncated JSON
  document);
* the bounding-box projection `getBoundingBoxStyle`
  (`components/chat/bounding-box-display.tsx`);
* the debounced page scrolling of `usePDFViewer`
  (`hooks/use-pdf-viewer.tsx`, `scrollToPage`);
* the citation-marker resolution (`components/chat/citation.tsx` together
  with the marker parsing in `parseMessageContent`);
* the API-key validation `validateApiKeys` (`helpers/api-keys.ts`) and the
  upload submission gate (`components/uploader.tsx`, `handleSubmit`).

JavaScript semantics that the embedded code relies on is modelled
explicitly: `JSON.parse` is a recursive-descent parser over the character
list (duplicate keys resolved last-wins, as in JS object construction),
truthiness (`if (x)`, `x || y`) is `jsTruthy`/`jsOrElse`, and the regex
fallback is a deterministic executable equivalent of the JS pattern
`"response"\s*:\s*"((?:[^"\:bs:]|\:bs:.)*)(?:"|$)` (see `extractResponse`
for why the greedy scan needs no backtracking).  Machine floats do not
occur on the decoder path; geometric computations use `ℚ`, which is exact
on all the rational inputs the claims mention.

The global response store (`@/store/response-store`, a zustand store that
is not part of the sources; only its call sites are) is modelled from the
spec, §5 "Shared resource policy": a single metadata record written by
`setMetadata` and read back by `useResponseStore.getState().metadata`,
last write wins within the single-threaded event loop.
-/

namespace CC

/-! ## JSON values

`Json` is the result type of the modelled `JSON.parse`.  Numbers keep
their source lexeme: no claim compares numeric values, and keeping the
lexeme avoids modelling IEEE floats.  Duplicate keys are kept in the
field list in source order; property access (`getProp`) resolves them
last-wins, exactly as JS object construction overwrites earlier keys. -/

inductive Json where
  | null
  | bool (b : Bool)
  | num (lex : String)
  | str (s : String)
  | arr (elems : List Json)
  | obj (fields : List (String × Json))
deriving Repr

mutual

def Json.beq : Json → Json → Bool
  | .null, .null => true
  | .bool a, .bool b => a = b
  | .num a, .num b => a = b
  | .str a, .str b => a = b
  | .arr a, .arr b => Json.beqList a b
  | .obj a, .obj b => Json.beqFields a b
  | _, _ => false

def Json.beqList : List Json → List Json → Bool
  | [], [] => true
  | a :: as, b :: bs => Json.beq a b && Json.beqList as bs
  | _, _ => false

def Json.beqFields : List (String × Json) → List (String × Json) → Bool
  | [], [] => true
  | (k, v) :: as, (l, w) :: bs => k = l && Json.beq v w && Json.beqFields as bs
  | _, _ => false

end

mutual

theorem Json.beq_iff : ∀ a b : Json, Json.beq a b = true ↔ a = b
  | .null, .null => by simp [Json.beq]
  | .bool a, .bool b => by simp [Json.beq]
  | .num a, .num b => by simp [Json.beq]
  | .str a, .str b => by simp [Json.beq]
  | .arr a, .arr b => by simp [Json.beq, Json.beqList_iff a b]
  | .obj a, .obj b => by simp [Json.beq, Json.beqFields_iff a b]
  | .null, .bool _ | .null, .num _ | .null, .str _ | .null, .arr _ | .null, .obj _
  | .bool _, .null | .bool _, .num _ | .bool _, .str _ | .bool _, .arr _ | .bool _, .obj _
  | .num _, .null | .num _, .bool _ | .num _, .str _ | .num _, .arr _ | .num _, .obj _
  | .str _, .null | .str _, .bool _ | .str _, .num _ | .str _, .arr _ | .str _, .obj _
  | .arr _, .null | .arr _, .bool _ | .arr _, .num _ | .arr _, .str _ | .arr _, .obj _
  | .obj _, .null | .obj _, .bool _ | .obj _, .num _ | .obj _, .str _ | .obj _, .arr _ => by
      simp [Json.beq]

theorem Json.beqList_iff : ∀ a b : List Json, Json.beqList a b = true ↔ a = b
  | [], [] => by simp [Json.beqList]
  | a :: as, b :: bs => by
      simp [Json.beqList, Json.beq_iff a b, Json.beqList_iff as bs]
  | [], _ :: _ => by simp [Json.beqList]
  | _ :: _, [] => by simp [Json.beqList]

theorem Json.beqFields_iff : ∀ a b : List (String × Json), Json.beqFields a b = true ↔ a = b
  | [], [] => by simp [Json.beqFields]
  | (k, v) :: as, (l, w) :: bs => by
      simp [Json.beqFields, Json.beq_iff v w, Json.beqFields_iff as bs, and_assoc]
  | [], _ :: _ => by simp [Json.beqFields]
  | _ :: _, [] => by simp [Json.beqFields]

end

instance : DecidableEq Json := fun a b =>
  decidable_of_iff (Json.beq a b = true) (Json.beq_iff a b)

def Json.isNumber : Json → Bool
  | .num _ => true
  | _ => false

def Json.isObj : Json → Bool
  | .obj _ => true
  | _ => false

/-- JS property access `v.key` on a parse result: defined (`some`) only on
objects; on every other value the access yields `undefined` (`none`)
(`null.key` would throw, but the decoder guards the one place where the
base can be `null`).  Duplicate keys resolve to the last occurrence, as JS
object construction overwrites earlier assignments. -/
def getProp (v : Json) (key : String) : Option Json :=
  match v with
  | .obj fields => fields.foldl (fun acc kv => if kv.1 = key then some kv.2 else acc) none
  | _ => none

/-- JS truthiness of a parsed JSON value.  A number is falsy iff its value
is zero, i.e. iff every mantissa digit of its lexeme is `0` (the exponent
cannot make a non-zero mantissa zero). -/
def numLexemeIsZero (lex : String) : Bool :=
  (lex.data.takeWhile (fun c => c ≠ 'e' ∧ c ≠ 'E')).all
    (fun c => c = '0' ∨ c = '-' ∨ c = '.')

def jsTruthy : Json → Bool
  | .null => false
  | .bool b => b
  | .num lex => ¬ numLexemeIsZero lex
  | .str s => s ≠ ""
  | .arr _ => true
  | .obj _ => true

/-- `x.length > 0` for a truthy `x`: arrays and strings have a `length`;
on any other value `.length` is `undefined` and `undefined > 0` is
`false`. -/
def jsLengthPos : Json → Bool
  | .arr l => 0 < l.length
  | .str s => 0 < s.length
  | _ => false

/-- The guard `x && x.length > 0` used for `metadata.citations` and
`metadata.images`. -/
def jsTruthyWithLength (v : Option Json) : Bool :=
  match v with
  | some j => jsTruthy j && jsLengthPos j
  | none => false

/-- JS `x || d` on a possibly-`undefined` `x`. -/
def jsOrElse (v : Option Json) (d : Json) : Json :=
  match v with
  | some j => if jsTruthy j then j else d
  | none => d

mutual

/-- JS string coercion `String(v)` of a parsed JSON value (`"" + v`):
used by the decoder only through `accumulatedContent += data.content`,
and the claims only exercise it on strings.  For numbers the lexeme is
used (JS re-prints the float; identical on all inputs the claims touch).
Arrays stringify as their comma-joined elements, recursively, with
`null` elements contributing the empty string. -/
def jsToText : Json → String
  | .null => "null"
  | .bool true => "true"
  | .bool false => "false"
  | .num lex => lex
  | .str s => s
  | .arr l => jsArrText l
  | .obj _ => "[object Object]"

def jsArrText : List Json → String
  | [] => ""
  | [Json.null] => ""
  | [x] => jsToText x
  | Json.null :: y :: xs => "," ++ jsArrText (y :: xs)
  | x :: y :: xs => jsToText x ++ "," ++ jsArrText (y :: xs)

end

/-- JS string coercion of `data.content`, which is `undefined` when the
field is absent (`acc += undefined` appends the text `"undefined"`). -/
def jsContentText (v : Option Json) : String :=
  match v with
  | some j => jsToText j
  | none => "undefined"

/-! ## The model of `JSON.parse`

A total recursive-descent parser over `List Char`, structural on a fuel
counter.  `jsonParse` accepts exactly one JSON value surrounded by JSON
whitespace (space, tab, newline, carriage return), as `JSON.parse` does;
any trailing non-whitespace rejects the whole input. -/

def isJsonWs (c : Char) : Bool :=
  c = ' ' ∨ c = '\t' ∨ c = '\n' ∨ c = '\r'

def skipWs : List Char → List Char
  | [] => []
  | c :: cs => if isJsonWs c then skipWs cs else c :: cs

/-- Consume an exact literal (used for the tails of `true`, `false`,
`null` after the dispatch character). -/
def dropLit : List Char → List Char → Option (List Char)
  | [], s => some s
  | c :: cs, d :: ds => if c = d then dropLit cs ds else none
  | _ :: _, [] => none

def hexVal (c : Char) : Option Nat :=
  if '0' ≤ c ∧ c ≤ '9' then some (c.toNat - '0'.toNat)
  else if 'a' ≤ c ∧ c ≤ 'f' then some (c.toNat - 'a'.toNat + 10)
  else if 'A' ≤ c ∧ c ≤ 'F' then some (c.toNat - 'A'.toNat + 10)
  else none

/-- The single-character JSON escapes (`\uXXXX` is handled separately). -/
def simpleEsc (e : Char) : Option Char :=
  if e = '\"' then some '\"'
  else if e = '\\' then some '\\'
  else if e = '/' then some '/'
  else if e = 'b' then some (Char.ofNat 8)
  else if e = 'f' then some (Char.ofNat 12)
  else if e = 'n' then some '\n'
  else if e = 'r' then some '\r'
  else if e = 't' then some '\t'
  else none

/-- The body of a JSON string literal, after the opening quote.  The JSON
escapes are the two quoting escapes, `/`, the five control escapes and
`\uXXXX`; a raw control character below `0x20` is rejected, as in
`JSON.parse`.  Success always consumes a closing quote. -/
def parseStringBody : List Char → Option (List Char × List Char)
  | [] => none
  | c :: rest =>
      if c = '\"' then some ([], rest)
      else if c = '\\' then
        match rest with
        | [] => none
        | e :: rest2 =>
            if e = 'u' then
              match rest2 with
              | a :: b :: x :: d :: rest3 =>
                  match hexVal a, hexVal b, hexVal x, hexVal d with
                  | some va, some vb, some vx, some vd =>
                      match parseStringBody rest3 with
                      | some (cs, r) =>
                          some (Char.ofNat (((va * 16 + vb) * 16 + vx) * 16 + vd) :: cs, r)
                      | none => none
                  | _, _, _, _ => none
              | _ => none
            else
              match simpleEsc e with
              | some ch =>
                  match parseStringBody rest2 with
                  | some (cs, r) => some (ch :: cs, r)
                  | none => none
              | none => none
      else if c.toNat < 32 then none
      else
        match parseStringBody rest with
        | some (cs, r) => some (c :: cs, r)
        | none => none

/-- Longest digit prefix.  The remainder, when non-empty, starts with a
non-digit. -/
def spanDigits : List Char → List Char × List Char
  | [] => ([], [])
  | c :: rest =>
      if c.isDigit then
        let p := spanDigits rest
        (c :: p.1, p.2)
      else ([], c :: rest)

/-- The integer part of a JSON number: `0`, or a nonzero digit followed by
digits (so `JSON.parse` stops after the `0` of `01`, and the leftover `1`
then rejects the surrounding structure). -/
def parseIntPart : List Char → Option (List Char × List Char)
  | [] => none
  | c :: rest =>
      if c = '0' then some (['0'], rest)
      else if c.isDigit then
        let p := spanDigits rest
        some (c :: p.1, p.2)
      else none

/-- Optional fraction `.digits`; when the input does not start a valid
fraction nothing is consumed (an ill-formed fraction such as `1.x` then
fails in the surrounding structure, as in `JSON.parse`). -/
def parseFrac : List Char → List Char × List Char
  | [] => ([], [])
  | c :: rest =>
      if c = '.' then
        match rest with
        | [] => ([], c :: rest)
        | c2 :: rest2 =>
            if c2.isDigit then
              let p := spanDigits rest2
              ('.' :: c2 :: p.1, p.2)
            else ([], c :: c2 :: rest2)
      else ([], c :: rest)

/-- Optional exponent `[eE][+-]?digits`; consumes nothing when ill-formed,
mirroring `parseFrac`. -/
def parseExp : List Char → List Char × List Char
  | [] => ([], [])
  | c :: rest =>
      if c = 'e' ∨ c = 'E' then
        match rest with
        | [] => ([], c :: rest)
        | c2 :: rest2 =>
            if c2 = '+' ∨ c2 = '-' then
              match rest2 with
              | [] => ([], c :: rest)
              | c3 :: rest3 =>
                  if c3.isDigit then
                    let p := spanDigits rest3
                    (c :: c2 :: c3 :: p.1, p.2)
                  else ([], c :: rest)
            else if c2.isDigit then
              let p := spanDigits rest2
              (c :: c2 :: p.1, p.2)
            else ([], c :: rest)
      else ([], c :: rest)

/-- A JSON number, returned as its lexeme. -/
def parseNumber : List Char → Option (List Char × List Char)
  | [] => none
  | c :: rest =>
      if c = '-' then
        match parseIntPart rest with
        | some (i, r1) =>
            let f := parseFrac r1
            let e := parseExp f.2
            some ('-' :: (i ++ f.1 ++ e.1), e.2)
        | none => none
      else
        match parseIntPart (c :: rest) with
        | some (i, r1) =>
            let f := parseFrac r1
            let e := parseExp f.2
            some (i ++ f.1 ++ e.1, e.2)
        | none => none

mutual

/-- One JSON value: leading whitespace, then dispatch on the first
character.  Stops immediately after the value (no trailing-whitespace
consumption; `jsonParse` checks the remainder separately). -/
def parseValue : Nat → List Char → Option (Json × List Char)
  | 0, _ => none
  | Nat.succ fuel, s =>
      match skipWs s with
      | [] => none
      | c :: r =>
          if c = '\x7b' then
            match skipWs r with
            | [] => parseMembers fuel r []
            | d :: r2 =>
                if d = '\x7d' then some (Json.obj [], r2)
                else parseMembers fuel r []
          else if c = '[' then
            match skipWs r with
            | [] => parseElems fuel r []
            | d :: r2 =>
                if d = ']' then some (Json.arr [], r2)
                else parseElems fuel r []
          else if c = '\"' then
            match parseStringBody r with
            | some (cs, r2) => some (Json.str (String.mk cs), r2)
            | none => none
          else if c = 't' then
            match dropLit ['r', 'u', 'e'] r with
            | some r2 => some (Json.bool true, r2)
            | none => none
          else if c = 'f' then
            match dropLit ['a', 'l', 's', 'e'] r with
            | some r2 => some (Json.bool false, r2)
            | none => none
          else if c = 'n' then
            match dropLit ['u', 'l', 'l'] r with
            | some r2 => some (Json.null, r2)
            | none => none
          else
            match parseNumber (c :: r) with
            | some (lex, r2) => some (Json.num (String.mk lex), r2)
            | none => none

/-- The members of an object, after its `\x7b` (the empty-object case is
handled in `parseValue`).  Success always consumes the closing `\x7d`. -/
def parseMembers : Nat → List Char → List (String × Json) →
    Option (Json × List Char)
  | 0, _, _ => none
  | Nat.succ fuel, s, acc =>
      match skipWs s with
      | [] => none
      | c :: r =>
          if c = '\"' then
            match parseStringBody r with
            | some (key, r2) =>
                match skipWs r2 with
                | [] => none
                | d :: r3 =>
                    if d = ':' then
                      match parseValue fuel r3 with
                      | some (v, r4) =>
                          match skipWs r4 with
                          | [] => none
                          | d2 :: r5 =>
                              if d2 = ',' then
                                parseMembers fuel r5 (acc ++ [(String.mk key, v)])
                              else if d2 = '\x7d' then
                                some (Json.obj (acc ++ [(String.mk key, v)]), r5)
                              else none
                      | none => none
                    else none
            | none => none
          else none

/-- The elements of an array, after its `[`.  Success always consumes the
closing `]`. -/
def parseElems : Nat → List Char → List Json → Option (Json × List Char)
  | 0, _, _ => none
  | Nat.succ fuel, s, acc =>
      match parseValue fuel s with
      | some (v, r) =>
          match skipWs r with
          | [] => none
          | d :: r2 =>
              if d = ',' then parseElems fuel r2 (acc ++ [v])
              else if d = ']' then some (Json.arr (acc ++ [v]), r2)
              else none
      | none => none

end

/-- Fuel that always suffices: every unit of nesting consumes at least one
input character, and each parser layer burns at most two fuel per
character consumed. -/
def parseFuel (s : List Char) : Nat := 2 * s.length + 4

/-- The model of `JSON.parse`: one value, then only whitespace may
remain. -/
def jsonParse (s : List Char) : Option Json :=
  match parseValue (parseFuel s) s with
  | some (v, r) => if skipWs r = [] then some v else none
  | none => none

/-- The remainder after a successful number parse whose surrounding
context already determined the stop: non-empty and not starting with a
character that could extend the number lexeme. -/
def numStopped : List Char → Prop
  | [] => False
  | c :: _ => ¬ c = '.' ∧ ¬ c = 'e' ∧ ¬ c = 'E' ∧ c.isDigit = false

/-! ## The regex fallback

The decoder's fallback pattern is
`"response"\s*:\s*"((?:[^"\:bs:]|\:bs:.)*)(?:"|$)` (where `:bs:` stands
for a backslash), applied with `String.match` (leftmost match), and the
captured body is then unescaped by `replace(/\:bs:(.)/g, '$1')`.

The model is deterministic: the capture group repeats units that are
either one character that is neither a quote nor a backslash, or a
backslash followed by one non-line-terminator.  Greedy consumption is
complete here: a shorter body would put a unit start — never a quote —
in front of the `(?:"|$)` closer, so backtracking can never succeed where
the greedy scan failed, and the greedy scan's stop position is the only
candidate for the closer. -/

/-- JS `\s` (the WhiteSpace and LineTerminator productions). -/
def isJsSpace (c : Char) : Bool :=
  c = ' ' ∨ c = '\t' ∨ c = '\n' ∨ c = '\x0b' ∨ c = '\x0c' ∨ c = '\r' ∨
  c = '\u00A0' ∨ c = '\u1680' ∨ ('\u2000' ≤ c ∧ c ≤ '\u200A') ∨
  c = '\u2028' ∨ c = '\u2029' ∨ c = '\u202F' ∨ c = '\u205F' ∨
  c = '\u3000' ∨ c = '\uFEFF'

/-- JS line terminators: `.` in a regex without the `s` flag matches any
character except these. -/
def isLineTerm (c : Char) : Bool :=
  c = '\n' ∨ c = '\r' ∨ c = '\u2028' ∨ c = '\u2029'

/-- The capture group after the opening quote: greedy unit consumption,
closed by a quote or by the end of the input; a backslash that is last or
is followed by a line terminator kills the match at this start
position. -/
def matchBody : List Char → List Char → Option (List Char)
  | [], acc => some acc.reverse
  | '\"' :: _, acc => some acc.reverse
  | '\\' :: c :: rest, acc =>
      if isLineTerm c then none else matchBody rest (c :: '\\' :: acc)
  | ['\\'], _ => none
  | c :: rest, acc => matchBody rest (c :: acc)

/-- Attempt the whole pattern at one start position. -/
def tryMatchAt (s : List Char) : Option (List Char) :=
  match dropLit "\"response\"".data s with
  | some r1 =>
      match r1.dropWhile isJsSpace with
      | ':' :: r3 =>
          match r3.dropWhile isJsSpace with
          | '\"' :: r5 => matchBody r5 []
          | _ => none
      | _ => none
  | none => none

/-- `accumulated.match(pattern)`: try every start position left to right
and return the first capture. -/
def extractResponse : List Char → Option (List Char)
  | [] => none
  | c :: rest =>
      match tryMatchAt (c :: rest) with
      | some b => some b
      | none => extractResponse rest

/-- `replace(/\:bs:(.)/g, '$1')`: drop each backslash that precedes a
non-line-terminator (the dot does not match line terminators, so a
backslash before one is left in place). -/
def unescapeBody : List Char → List Char
  | [] => []
  | '\\' :: c :: rest =>
      if isLineTerm c then '\\' :: unescapeBody (c :: rest)
      else c :: unescapeBody rest
  | c :: rest => c :: unescapeBody rest

/-! ## The streaming decoder

`handleStreamingResponse` from the helper that consumes the `/api/generate`
stream.  State components follow the source's local variables (`result`,
`responseImages`, `accumulatedContent`, `toolCalls`) plus the shared
response-store metadata record that `setMetadata` writes and
`useResponseStore.getState().metadata` reads back (the store itself is
modelled from the spec, §5: one global record, last write wins).

Observable updates (the calls to `setStreamingText`, `setMetadata` and
`setStreamingToolCalls`, and the `console.warn` on an unparseable line)
are recorded as an event list. -/

structure MetadataRec where
  citations : Json
  images : Json
deriving Repr, DecidableEq

structure ToolCallRec where
  tool_name : Option Json
  arguments : Option Json
deriving Repr, DecidableEq

inductive DecEvent where
  | pubText (t : Json)
  | pubMeta (m : MetadataRec)
  | pubToolCall (t : ToolCallRec)
  | warn
deriving Repr, DecidableEq

structure DecState where
  result : Json
  responseImages : Json
  accumulated : List Char
  toolCalls : List ToolCallRec
  store : MetadataRec
deriving Repr, DecidableEq

/-- `if (metadata.citations && metadata.citations.length > 0)`: publish
those citations together with `metadata.images || []`. -/
def citationsStep (st : DecState) (m : Json) : DecState × List DecEvent :=
  if jsTruthyWithLength (getProp m "citations") then
    match getProp m "citations" with
    | some c =>
        let nm : MetadataRec := ⟨c, jsOrElse (getProp m "images") (Json.arr [])⟩
        ({ st with store := nm }, [DecEvent.pubMeta nm])
    | none => (st, [])
  else (st, [])

/-- `if (metadata.images && metadata.images.length > 0)`: remember the
images in `responseImages` and publish them together with the citations
currently in the store (read back via `getState()` after the possible
`citationsStep` write). -/
def imagesStep (st : DecState) (m : Json) : DecState × List DecEvent :=
  if jsTruthyWithLength (getProp m "images") then
    match getProp m "images" with
    | some im =>
        let nm : MetadataRec := ⟨st.store.citations, im⟩
        ({ st with responseImages := im, store := nm }, [DecEvent.pubMeta nm])
    | none => (st, [])
  else (st, [])

/-- The `if (jsonResponse.metadata)` block. -/
def applyMetadata (st : DecState) (jr : Json) : DecState × List DecEvent :=
  match getProp jr "metadata" with
  | some m =>
      if jsTruthy m then
        let s1 := citationsStep st m
        let s2 := imagesStep s1.1 m
        (s2.1, s1.2 ++ s2.2)
      else (st, [])
  | none => (st, [])

/-- The `if (jsonResponse.response)` block: publish the value as the
current full text and remember it as the final `result`. -/
def applyResponse (st : DecState) (jr : Json) : DecState × List DecEvent :=
  match getProp jr "response" with
  | some rv =>
      if jsTruthy rv then
        ({ st with result := rv }, [DecEvent.pubText rv])
      else (st, [])
  | none => (st, [])

/-- Both blocks, in source order, on a successfully parsed accumulated
buffer. -/
def applyParsedDoc (st : DecState) (jr : Json) : DecState × List DecEvent :=
  let s1 := applyMetadata st jr
  let s2 := applyResponse s1.1 jr
  (s2.1, s1.2 ++ s2.2)

/-- The catch branch: regex extraction over the accumulated buffer.  The
source guards with `if (match && match[1])`, so an empty capture — a
falsy string — publishes nothing. -/
def applyFallback (st : DecState) : DecState × List DecEvent :=
  match extractResponse st.accumulated with
  | some body =>
      if body.isEmpty then (st, [])
      else
        let t := Json.str (String.mk (unescapeBody body))
        ({ st with result := t }, [DecEvent.pubText t])
  | none => (st, [])

/-- A `response`-type frame: append the (coerced) content to the
accumulated buffer, then try the full parse, falling back to the regex
extraction. -/
def applyResponseFrame (st : DecState) (content : String) : DecState × List DecEvent :=
  let st0 := { st with accumulated := st.accumulated ++ content.data }
  match jsonParse st0.accumulated with
  | some jr => applyParsedDoc st0 jr
  | none => applyFallback st0

/-- One line of the stream.  An unparseable line is skipped with a logged
warning; `JSON.parse` can also return `null` (line `"null"`), in which
case `data.type` throws and the same catch logs a warning.  A parsed line
whose `type` is neither `"tool_call"` nor `"response"` is ignored
silently. -/
def processLine (st : DecState) (line : List Char) : DecState × List DecEvent :=
  match jsonParse line with
  | none => (st, [DecEvent.warn])
  | some data =>
      if data = Json.null then (st, [DecEvent.warn])
      else if getProp data "type" = some (Json.str "tool_call") then
        let tc : ToolCallRec := ⟨getProp data "tool_name", getProp data "arguments"⟩
        ({ st with toolCalls := st.toolCalls ++ [tc] }, [DecEvent.pubToolCall tc])
      else if getProp data "type" = some (Json.str "response") then
        applyResponseFrame st (jsContentText (getProp data "content"))
      else (st, [])

/-- `chunk.split('\n')` (JS `String.split` with a one-character
separator). -/
def splitOnNl : List Char → List (List Char)
  | [] => [[]]
  | c :: rest =>
      if c = '\n' then [] :: splitOnNl rest
      else
        match splitOnNl rest with
        | [] => [[c]]
        | h :: t => (c :: h) :: t

/-- `line.trim()` is truthy iff the line has a non-`\s` character. -/
def jsTrimNonempty (l : List Char) : Bool :=
  ¬ (l.dropWhile isJsSpace).isEmpty

def processLines (st : DecState) (lines : List (List Char)) :
    DecState × List DecEvent :=
  lines.foldl
    (fun p line =>
      let q := processLine p.1 line
      (q.1, p.2 ++ q.2))
    (st, [])

/-- One `reader.read()` chunk: split on newlines in isolation, keep the
lines whose trim is truthy, process them in order.  No carry-over buffer
survives between chunks. -/
def processChunk (st : DecState) (chunk : List Char) : DecState × List DecEvent :=
  processLines st ((splitOnNl chunk).filter jsTrimNonempty)

def runChunks (st : DecState) (chunks : List (List Char)) :
    DecState × List DecEvent :=
  chunks.foldl
    (fun p chunk =>
      let q := processChunk p.1 chunk
      (q.1, p.2 ++ q.2))
    (st, [])

/-- The initial local state of one call, with the store's metadata as the
surrounding application left it. -/
def initialState (store0 : MetadataRec) : DecState :=
  ⟨Json.str "", Json.arr [], [], [], store0⟩

structure SessionResult where
  text : Json
  images : Json
  toolCalls : List ToolCallRec
deriving Repr, DecidableEq

/-- `handleStreamingResponse`: `response.body?.getReader()` is `none` when
the body has no reader, in which case the call throws
`'Failed to get reader'` before reading any frame; otherwise the chunk
sequence is consumed and the function returns the final text, the last
non-empty image list seen, and the collected tool calls. -/
def handleStreamingResponse (body : Option (List (List Char)))
    (store0 : MetadataRec) :
    Except String (SessionResult × List DecEvent) :=
  match body with
  | none => Except.error "Failed to get reader"
  | some chunks =>
      let p := runChunks (initialState store0) chunks
      Except.ok (⟨p.1.result, p.1.responseImages, p.1.toolCalls⟩, p.2)

/-! ## Bounding-box projection

`getBoundingBoxStyle` from `bounding-box-display.tsx`.  The DOM lookups
(`document.querySelector('[data-page-number=...]')` and
`closest(...)getBoundingClientRect()`) are modelled as an optional
measured geometry: `none` when the page element (or its container) is not
mounted.  Lengths are exact rationals. -/

structure BoundingBox where
  top : ℚ
  left : ℚ
  width : ℚ
  height : ℚ
deriving Repr, DecidableEq

/-- One entry of the `bboxes` array built from the chunks' segments. -/
structure BBoxItem where
  bbox : BoundingBox
  page_number : Nat
  id : String
  page_width : ℚ
  page_height : ℚ
deriving Repr, DecidableEq

/-- A `getBoundingClientRect()` result (viewport coordinates). -/
structure DomRect where
  top : ℚ
  left : ℚ
  width : ℚ
  height : ℚ
deriving Repr, DecidableEq

def DomRect.bottom (r : DomRect) : ℚ := r.top + r.height

/-- The measured geometry of a mounted page: its own client rect and the
client rect of the enclosing scroll container (itself optional — `closest`
can fail). -/
structure PageGeometry where
  pageRect : DomRect
  containerRect : Option DomRect
deriving Repr, DecidableEq

/-- The returned inline style, in pixels. -/
structure BoxStyle where
  width : ℚ
  height : ℚ
  left : ℚ
  top : ℚ
deriving Repr, DecidableEq

def getBoundingBoxStyle (box : BBoxItem) (page : Option PageGeometry) :
    Option BoxStyle :=
  match page with
  | none => none
  | some pg =>
      match pg.containerRect with
      | none => none
      | some cr =>
          let relativeTop := pg.pageRect.top - cr.top
          let relativeLeft := pg.pageRect.left - cr.left
          let scaleX := pg.pageRect.width / box.page_width
          let scaleY := pg.pageRect.height / box.page_height
          some
            { width := box.bbox.width * scaleX
              height := box.bbox.height * scaleY
              left := relativeLeft + box.bbox.left * scaleX
              top := relativeTop + box.bbox.top * scaleY }

/-! ## Debounced scrolling

`scrollToPage` from `use-pdf-viewer.tsx`: every invocation clears the
pending timeout (if any) and schedules the scroll callback 300 ms later.
A burst of invocations is modelled as a list of `(time, payload)` pairs
with strictly increasing times; an invocation's callback fires iff no
further invocation arrives before its deadline (the next invocation's
`clearTimeout` cancels it), so the pending timer always carries the
latest payload: last write wins. -/

def debounceDelay : Nat := 300

def debounceFiresFrom {α : Type} : (Nat × α) → List (Nat × α) → List (Nat × α)
  | cur, [] => [cur]
  | cur, nxt :: rest =>
      (if cur.1 + debounceDelay ≤ nxt.1 then [cur] else []) ++
        debounceFiresFrom nxt rest

/-- The invocations of a burst whose 300 ms timer actually fires. -/
def debounceFires {α : Type} : List (Nat × α) → List (Nat × α)
  | [] => []
  | i :: rest => debounceFiresFrom i rest

/-- What the fired callback reads: the scroll container, the page refs and
the hovered-chunk id in the store, all at fire time. -/
structure PageSnapshot where
  offsetTop : ℚ
  rect : DomRect
deriving Repr, DecidableEq

structure ViewerSnapshot where
  containerRect : Option DomRect
  page : Nat → Option PageSnapshot
  hoveredChunkId : Option String

inductive ScrollAction where
  | scrollTo (top : ℚ)
  | intoView
  | noop
deriving Repr, DecidableEq

/-- The body of the 300 ms callback in `scrollToPage`: resolve the hovered
bounding box on the target page; when found, scroll the container to
`offsetTop + pageRect.height * (bbox.top / page_height) - 0.1 *
containerRect.height`; otherwise bring the page into view only when it is
not fully visible. -/
def scrollCallback (bboxes : List BBoxItem) (snap : ViewerSnapshot)
    (pageNumber : Nat) : ScrollAction :=
  match snap.containerRect, snap.page pageNumber with
  | some cont, some pageEl =>
      let bbox : Option BBoxItem :=
        match snap.hoveredChunkId with
        | some hid =>
            bboxes.find? (fun b => b.id = hid ∧ b.page_number = pageNumber)
        | none => none
      match bbox with
      | some b =>
          ScrollAction.scrollTo
            (pageEl.offsetTop + pageEl.rect.height * (b.bbox.top / b.page_height) -
              cont.height * (1 / 10))
      | none =>
          if pageEl.rect.top < cont.top ∨ cont.bottom < pageEl.rect.bottom then
            ScrollAction.intoView
          else ScrollAction.noop
  | _, _ => ScrollAction.noop

/-! ## Citation markers

`parseMessageContent` turns `[n]` / `[n, m, …]` runs into `Citation`
components; `Citation` resolves `metadata.citations[count - 1]` and its
click handler only acts when that lookup produced a truthy id. -/

def digitsToNat (ds : List Char) : Nat :=
  ds.foldl (fun n c => 10 * n + (c.toNat - '0'.toNat)) 0

/-- The inner citation-marker grammar `\d+(?:,\s*\d+)*` followed by the
closing bracket and end of input; collects `parseInt` of each group.
Structural on the remaining input via a fuel bound. -/
def markerLoop : Nat → List Char → List Nat → Option (List Nat)
  | 0, _, _ => none
  | Nat.succ fuel, s, acc =>
      let p := spanDigits s
      if p.1.isEmpty then none
      else
        match p.2 with
        | [']'] => some (acc ++ [digitsToNat p.1])
        | ',' :: rest =>
            markerLoop fuel (rest.dropWhile isJsSpace) (acc ++ [digitsToNat p.1])
        | _ => none

/-- `value.match(/^\[(\d+(?:,\s*\d+)*)\]$/)` plus the `parseInt` mapping:
the numbers of one citation marker, or `none` when the text is not a
marker. -/
def markerNumbers (s : List Char) : Option (List Nat) :=
  match s with
  | '[' :: rest => markerLoop (rest.length + 1) rest []
  | _ => none

/-- `metadata.citations[count - 1]`: JS array indexing with an `Int`
index; a negative or out-of-range index yields `undefined`.  (On a string
value JS would index its characters; the store's citations are lists in
every reachable state the claims touch.) -/
def citationChunkId (citations : Json) (count : Nat) : Option Json :=
  let idx : Int := (count : Int) - 1
  match citations with
  | Json.arr l => if idx < 0 then none else l.get? idx.toNat
  | _ => none

/-- `handleClick` of `Citation`: only a truthy `chunkId` acts; clicking
the already-hovered id clears the hover, otherwise the id is set.  JS
`===` on the two ids is modelled as structural equality (the ids are
strings). -/
def citationClick (hovered : Option Json) (chunkId : Option Json) : Option Json :=
  match chunkId with
  | some c => if jsTruthy c then (if hovered = some c then none else some c) else hovered
  | none => hovered

/-! ## API-key validation and the upload gate -/

structure ApiKeys where
  openai : String
  openrouter : String
  chunkr : String
deriving Repr, DecidableEq

/-- `validateApiKeys` from `helpers/api-keys.ts`: the stored keys default
to `''`, `!key` is emptiness, and the missing names are pushed in source
order. -/
def validateApiKeys (k : ApiKeys) : Bool × List String :=
  let missingKeys :=
    (if k.openai = "" then ["OpenAI"] else []) ++
    (if k.openrouter = "" then ["OpenRouter"] else []) ++
    (if k.chunkr = "" then ["Chunkr"] else [])
  (missingKeys.length = 0, missingKeys)

inductive SubmitOutcome where
  | ignored
  | blocked (msg : String)
  | proceeds
deriving Repr, DecidableEq

/-- The guard prefix of `handleSubmit` in `uploader.tsx`: no input returns
silently; missing keys toast one aggregated message and return; otherwise
the upload proceeds.  `validateUrl` (a zod URL check) is a parameter. -/
def handleSubmitGate (hasFile : Bool) (url : String)
    (validateUrl : String → Bool) (keys : ApiKeys) : SubmitOutcome :=
  if ¬ hasFile ∧ (url = "" ∨ ¬ validateUrl url) then SubmitOutcome.ignored
  else if ¬ (validateApiKeys keys).1 then
    SubmitOutcome.blocked
      ("Missing API keys: " ++ String.intercalate ", " (validateApiKeys keys).2 ++
        ". Please configure them first.")
  else SubmitOutcome.proceeds

/-! ## Concrete documents and event classifiers used by the claims -/

/-- The complete structured-response document of the single-frame claim. -/
def c1Doc : String :=
  "\x7b\"metadata\":\x7b\"citations\":[\"a\",\"b\"],\"images\":[]\x7d,\"response\":\"hello\"\x7d"

/-- A concrete single-frame stream line carrying `c1Doc` as its content
(the quotes of the embedded document are escaped inside the frame's JSON
string). -/
def c1Line : String :=
  "\x7b\"type\":\"response\",\"content\":\"\x7b\\\"metadata\\\":\x7b\\\"citations\\\":[\\\"a\\\",\\\"b\\\"],\\\"images\\\":[]\x7d,\\\"response\\\":\\\"hello\\\"\x7d\"\x7d"

/-- Its parse. -/
def c1DocJson : Json :=
  Json.obj
    [("metadata",
      Json.obj
        [("citations", Json.arr [Json.str "a", Json.str "b"]),
         ("images", Json.arr [])]),
     ("response", Json.str "hello")]

/-- Truncated mid-key: no parse, no regex match. -/
def c2Respon : String := "\x7b\"respon"

/-- Truncated mid-string: the regex fallback captures `partial tex`. -/
def c2Partial : String := "\x7b\"response\": \"partial tex"

/-- Truncated right after the opening quote of the value: the regex
matches with an empty capture. -/
def c2EmptyAcc : String := "\x7b\"response\": \""

/-- A complete document with non-empty citations and no images field. -/
def c3Doc : String := "\x7b\"metadata\":\x7b\"citations\":[\"a\"]\x7d\x7d"

def isMetaEvent : DecEvent → Bool
  | DecEvent.pubMeta _ => true
  | _ => false

def isTextEvent : DecEvent → Bool
  | DecEvent.pubText _ => true
  | _ => false

/-- A non-empty JSON list value, the shape of a published citation or
image list that the non-retraction claims talk about. -/
def nonEmptyListVal : Json → Prop
  | Json.arr l => l ≠ []
  | _ => False

/-- A parsed buffer document whose metadata block carries a non-empty
image list.  Once such a document has produced a metadata publish with a
non-empty image list, every publish derived from the same document keeps
the images non-empty. -/
def GoodImagesDoc (v : Json) : Prop :=
  ∃ m l, getProp v "metadata" = some m ∧ jsTruthy m = true ∧
    getProp m "images" = some (Json.arr l) ∧ l ≠ []

/-- The decoder-state invariant behind the image latch: the store's image
list is a non-empty list, and every way the growing accumulated buffer
can ever parse again yields a document with a non-empty image list (by
`jsonParse_append_obj` the only such document is the one already
parsed). -/
def ImagesLatched (s : DecState) : Prop :=
  nonEmptyListVal s.store.images ∧
  ∀ ext w, jsonParse (s.accumulated ++ ext) = some w → GoodImagesDoc w

/-! ## Parser lemmas

The decoder appends to its accumulated buffer and re-parses; the claims
about non-retraction (C4) and about frames split across reads (C10) rest
on the fact that extending the input on the right cannot change a parse
that already succeeded — except for a number running to the end of input,
which the side conditions below exclude.  All lemmas are stated for the
fuel-indexed parser with a possibly larger fuel on the extended input. -/

/-- A complete document whose metadata carries an empty citation list. -/
def c4EmptyDoc : String := "\x7b\"metadata\":\x7b\"citations\":[]\x7d\x7d"

/-- A response frame whose content is `c4EmptyDoc` (embedded quotes
escaped inside the frame's JSON string). -/
def c4EmptyLine : String :=
  "\x7b\"type\":\"response\",\"content\":\"\x7b\\\"metadata\\\":\x7b\\\"citations\\\":[]\x7d\x7d\"\x7d"

/-- A response frame whose content is `c3Doc` (non-empty citations). -/
def c4RepLine : String :=
  "\x7b\"type\":\"response\",\"content\":\"\x7b\\\"metadata\\\":\x7b\\\"citations\\\":[\\\"a\\\"]\x7d\x7d\"\x7d"

/-- A response frame whose content carries citations `[a]` and the
non-empty image list `[i]`. -/
def c4ImgLine : String :=
  "\x7b\"type\":\"response\",\"content\":\"\x7b\\\"metadata\\\":\x7b\\\"citations\\\":[\\\"a\\\"],\\\"images\\\":[\\\"i\\\"]\x7d\x7d\"\x7d"

/-- A frame cut mid-key: `\x7b"type":"resp` then `onse","content":"hi"\x7d`. -/
def c10A : String := "\x7b\"type\":\"resp"

def c10B : String := "onse\",\"content\":\"hi\"\x7d"

theorem skipWs_append_of_nil {s : List Char} (h : skipWs s = []) (t : List Char) :
    skipWs (s ++ t) = skipWs t := by
  induction s with
  | nil => simp
  | cons c cs ih =>
      simp only [skipWs] at h
      by_cases hc : isJsonWs c = true
      · simp only [List.cons_append, skipWs, hc, if_true]
        exact ih (by simpa [hc] using h)
      · simp [hc] at h

theorem skipWs_append_of_cons {s : List Char} {c : Char} {r : List Char}
    (h : skipWs s = c :: r) (t : List Char) :
    skipWs (s ++ t) = c :: (r ++ t) := by
  induction s with
  | nil => simp [skipWs] at h
  | cons d ds ih =>
      simp only [skipWs] at h
      by_cases hd : isJsonWs d = true
      · simp only [hd, if_true] at h
        simp only [List.cons_append, skipWs, hd, if_true]
        exact ih h
      · simp only [hd, if_false, Bool.false_eq_true] at h
        cases h
        simp [List.cons_append, skipWs, hd]

theorem skipWs_eq_nil_iff {s : List Char} :
    skipWs s = [] ↔ ∀ c ∈ s, isJsonWs c := by
  induction s with
  | nil => simp [skipWs]
  | cons c cs ih =>
      by_cases hc : isJsonWs c = true
      · simp [skipWs, hc, ih]
      · simp [skipWs, hc]

theorem dropLit_append : ∀ {lit s r : List Char}, dropLit lit s = some r →
    ∀ t, dropLit lit (s ++ t) = some (r ++ t)
  | [], s, r, h, t => by
      simp only [dropLit, Option.some.injEq] at h
      subst h
      simp [dropLit]
  | c :: cs, d :: ds, r, h, t => by
      simp only [dropLit] at h
      by_cases hcd : c = d
      · simp only [hcd, if_true] at h
        simp only [List.cons_append, dropLit, hcd, if_true]
        exact dropLit_append h t
      · simp [hcd] at h
  | c :: cs, [], r, h, t => by simp [dropLit] at h

theorem parseStringBody_append : ∀ {s cs r : List Char},
    parseStringBody s = some (cs, r) →
    ∀ t, parseStringBody (s ++ t) = some (cs, r ++ t)
  | [], cs, r, h, t => by simp [parseStringBody] at h
  | c :: rest, cs, r, h, t => by
      rw [parseStringBody.eq_def] at h
      simp only at h
      by_cases hq : c = '\"'
      · simp only [hq, if_true, Option.some.injEq, Prod.mk.injEq] at h
        obtain ⟨rfl, rfl⟩ := h
        subst hq
        rw [List.cons_append, parseStringBody.eq_def]
        simp
      · by_cases hb : c = '\\'
        · simp only [hq, if_false, hb, if_true] at h
          match rest with
          | [] => simp at h
          | e :: rest2 =>
              simp only at h
              by_cases hu : e = 'u'
              · simp only [hu, if_true] at h
                match rest2 with
                | a :: b :: x :: d :: rest3 =>
                    simp only at h
                    match hva : hexVal a, hvb : hexVal b, hvx : hexVal x, hvd : hexVal d with
                    | some va, some vb, some vx, some vd =>
                        rw [hva, hvb, hvx, hvd] at h
                        match hrec : parseStringBody rest3 with
                        | some (cs2, r2) =>
                            rw [hrec] at h
                            simp only [Option.some.injEq, Prod.mk.injEq] at h
                            obtain ⟨rfl, rfl⟩ := h
                            have hx := parseStringBody_append hrec t
                            subst hb hu
                            rw [List.cons_append, parseStringBody.eq_def]
                            simp [hva, hvb, hvx, hvd, hx]
                        | none => rw [hrec] at h; cases h
                    | none, _, _, _ => rw [hva] at h; cases h
                    | some _, none, _, _ => rw [hva, hvb] at h; cases h
                    | some _, some _, none, _ => rw [hva, hvb, hvx] at h; cases h
                    | some _, some _, some _, none => rw [hva, hvb, hvx, hvd] at h; cases h
                | [] => simp at h
                | [a] => simp at h
                | [a, b] => simp at h
                | [a, b, x] => simp at h
              · simp only [hu, if_false] at h
                match hesc : simpleEsc e with
                | some ch =>
                    rw [hesc] at h
                    match hrec : parseStringBody rest2 with
                    | some (cs2, r2) =>
                        rw [hrec] at h
                        simp only [Option.some.injEq, Prod.mk.injEq] at h
                        obtain ⟨rfl, rfl⟩ := h
                        have hx := parseStringBody_append hrec t
                        subst hb
                        rw [List.cons_append, parseStringBody.eq_def]
                        simp [hu, hesc, hx]
                    | none => rw [hrec] at h; cases h
                | none => rw [hesc] at h; cases h
        · simp only [hq, hb, if_false] at h
          by_cases hctl : c.toNat < 32
          · simp [hctl] at h
          · simp only [hctl, if_false] at h
            match hrec : parseStringBody rest with
            | some (cs2, r2) =>
                rw [hrec] at h
                simp only [Option.some.injEq, Prod.mk.injEq] at h
                obtain ⟨rfl, rfl⟩ := h
                have hx := parseStringBody_append hrec t
                rw [List.cons_append, parseStringBody.eq_def]
                simp [hq, hb, hctl, hx]
            | none => rw [hrec] at h; cases h

theorem spanDigits_append : ∀ {s a b : List Char}, spanDigits s = (a, b) →
    b ≠ [] → ∀ t, spanDigits (s ++ t) = (a, b ++ t)
  | [], a, b, h, hb, t => by
      simp only [spanDigits, Prod.mk.injEq] at h
      exact absurd h.2.symm hb
  | c :: rest, a, b, h, hb, t => by
      rcases hsp : spanDigits rest with ⟨a2, b2⟩
      simp only [spanDigits, hsp] at h
      by_cases hc : c.isDigit = true
      · simp only [hc, if_true, Prod.mk.injEq] at h
        obtain ⟨rfl, rfl⟩ := h
        have hx := spanDigits_append hsp hb t
        simp [List.cons_append, spanDigits, hc, hx]
      · simp only [hc, if_false, Bool.false_eq_true, Prod.mk.injEq] at h
        obtain ⟨rfl, rfl⟩ := h
        simp [List.cons_append, spanDigits, hc]

theorem parseIntPart_append {s i r1 : List Char} (h : parseIntPart s = some (i, r1))
    (hr : r1 ≠ []) (t : List Char) : parseIntPart (s ++ t) = some (i, r1 ++ t) := by
  match s with
  | [] => simp [parseIntPart] at h
  | c :: rest =>
      rcases hsp : spanDigits rest with ⟨a2, b2⟩
      simp only [parseIntPart, hsp] at h
      by_cases h0 : c = '0'
      · simp only [h0, if_true, Option.some.injEq, Prod.mk.injEq] at h
        obtain ⟨rfl, rfl⟩ := h
        simp [List.cons_append, parseIntPart, h0]
      · by_cases hc : c.isDigit = true
        · simp only [h0, if_false, hc, if_true, Option.some.injEq, Prod.mk.injEq] at h
          obtain ⟨rfl, rfl⟩ := h
          have hx := spanDigits_append hsp hr t
          simp [List.cons_append, parseIntPart, h0, hc, hx]
        · simp [h0, hc] at h

theorem parseFrac_append {r1 f r2 : List Char} (h : parseFrac r1 = (f, r2))
    (hr : r2 ≠ []) (hdot : ∀ y, r2 ≠ '.' :: y) (t : List Char) :
    parseFrac (r1 ++ t) = (f, r2 ++ t) := by
  match r1 with
  | [] =>
      simp only [parseFrac, Prod.mk.injEq] at h
      exact absurd h.2.symm hr
  | c :: rest =>
      simp only [parseFrac] at h
      by_cases hc : c = '.'
      · simp only [hc, if_true] at h
        match rest with
        | [] =>
            simp only [Prod.mk.injEq] at h
            obtain ⟨rfl, rfl⟩ := h
            exact absurd rfl (hdot [])
        | c2 :: rest2 =>
            simp only at h
            by_cases h2 : c2.isDigit = true
            · rcases hsp : spanDigits rest2 with ⟨a2, b2⟩
              rw [hsp] at h
              simp only [h2, if_true, Prod.mk.injEq] at h
              obtain ⟨rfl, rfl⟩ := h
              have hx := spanDigits_append hsp hr t
              simp [List.cons_append, parseFrac, hc, h2, hx]
            · simp only [h2, if_false, Bool.false_eq_true, Prod.mk.injEq] at h
              obtain ⟨rfl, rfl⟩ := h
              exact absurd rfl (hdot (c2 :: rest2))
      · simp only [hc, if_false, Prod.mk.injEq] at h
        obtain ⟨rfl, rfl⟩ := h
        simp [List.cons_append, parseFrac, hc]

/-- Where `parseExp` leaves the input: either it consumes nothing, or the
input began with an exponent marker. -/
theorem parseExp_shape {r2 e r3 : List Char} (h : parseExp r2 = (e, r3)) :
    (e = [] ∧ r3 = r2) ∨ (∃ c rest, r2 = c :: rest ∧ (c = 'e' ∨ c = 'E')) := by
  match r2 with
  | [] =>
      simp only [parseExp, Prod.mk.injEq] at h
      exact Or.inl ⟨h.1.symm, h.2.symm⟩
  | c :: rest =>
      simp only [parseExp] at h
      by_cases hc : (c = 'e' ∨ c = 'E')
      · exact Or.inr ⟨c, rest, rfl, hc⟩
      · simp only [hc, if_false, Prod.mk.injEq] at h
        exact Or.inl ⟨h.1.symm, h.2.symm⟩

theorem parseExp_append {r2 e r3 : List Char} (h : parseExp r2 = (e, r3))
    (hr : numStopped r3) (t : List Char) : parseExp (r2 ++ t) = (e, r3 ++ t) := by
  match r2 with
  | [] =>
      simp only [parseExp, Prod.mk.injEq] at h
      obtain ⟨rfl, rfl⟩ := h
      exact absurd hr (by simp [numStopped])
  | c :: rest =>
      simp only [parseExp] at h
      by_cases hc : (c = 'e' ∨ c = 'E')
      · simp only [hc, if_true] at h
        match rest with
        | [] =>
            simp only [Prod.mk.injEq] at h
            obtain ⟨rfl, rfl⟩ := h
            rcases hc with hc | hc <;> subst hc <;>
              simp [numStopped] at hr
        | c2 :: rest2 =>
            simp only at h
            by_cases h2 : (c2 = '+' ∨ c2 = '-')
            · simp only [h2, if_true] at h
              match rest2 with
              | [] =>
                  simp only [Prod.mk.injEq] at h
                  obtain ⟨rfl, rfl⟩ := h
                  rcases hc with hc | hc <;> subst hc <;>
                    simp [numStopped] at hr
              | c3 :: rest3 =>
                  simp only at h
                  by_cases h3 : c3.isDigit = true
                  · rcases hsp : spanDigits rest3 with ⟨a2, b2⟩
                    rw [hsp] at h
                    simp only [h3, if_true, Prod.mk.injEq] at h
                    obtain ⟨rfl, rfl⟩ := h
                    have hrne : b2 ≠ [] := by
                      intro hbad
                      rw [hbad] at hr
                      simp [numStopped] at hr
                    have hx := spanDigits_append hsp hrne t
                    simp [List.cons_append, parseExp, hc, h2, h3, hx]
                  · simp only [h3, if_false, Bool.false_eq_true, Prod.mk.injEq] at h
                    obtain ⟨rfl, rfl⟩ := h
                    rcases hc with hc | hc <;> subst hc <;>
                      simp [numStopped] at hr
            · simp only [h2, if_false] at h
              by_cases h2d : c2.isDigit = true
              · rcases hsp : spanDigits rest2 with ⟨a2, b2⟩
                rw [hsp] at h
                simp only [h2d, if_true, Prod.mk.injEq] at h
                obtain ⟨rfl, rfl⟩ := h
                have hrne : b2 ≠ [] := by
                  intro hbad
                  rw [hbad] at hr
                  simp [numStopped] at hr
                have hx := spanDigits_append hsp hrne t
                simp [List.cons_append, parseExp, hc, h2, h2d, hx]
              · simp only [h2d, if_false, Bool.false_eq_true, Prod.mk.injEq] at h
                obtain ⟨rfl, rfl⟩ := h
                rcases hc with hc | hc <;> subst hc <;>
                  simp [numStopped] at hr
      · simp only [hc, if_false, Prod.mk.injEq] at h
        obtain ⟨rfl, rfl⟩ := h
        simp [List.cons_append, parseExp, hc]

theorem parseNumber_append {s lex r : List Char} (h : parseNumber s = some (lex, r))
    (hr : numStopped r) (t : List Char) : parseNumber (s ++ t) = some (lex, r ++ t) := by
  have hr3ne : r ≠ [] := by
    intro hbad
    rw [hbad] at hr
    simp [numStopped] at hr
  match s with
  | [] => simp [parseNumber] at h
  | c :: rest =>
      simp only [parseNumber] at h
      by_cases hm : c = '-'
      · simp only [hm, if_true] at h
        match hip : parseIntPart rest with
        | none => rw [hip] at h; cases h
        | some (i, r1) =>
            rw [hip] at h
            rcases hf : parseFrac r1 with ⟨f, r2⟩
            rcases he : parseExp r2 with ⟨e, r3⟩
            simp only [hf, he, Option.some.injEq, Prod.mk.injEq] at h
            obtain ⟨rfl, rfl⟩ := h
            have hr2ne : r2 ≠ [] := by
              intro hbad
              rw [hbad] at he
              simp only [parseExp, Prod.mk.injEq] at he
              exact hr3ne he.2.symm
            have hr1ne : r1 ≠ [] := by
              intro hbad
              rw [hbad] at hf
              simp only [parseFrac, Prod.mk.injEq] at hf
              exact hr2ne hf.2.symm
            have hdot : ∀ y, r2 ≠ '.' :: y := by
              intro y hbad
              rcases parseExp_shape he with ⟨rfl, rfl⟩ | ⟨c2, rest2, heq, hc2⟩
              · rw [hbad] at hr
                simp [numStopped] at hr
              · rw [hbad] at heq
                cases heq
                rcases hc2 with h | h <;> simp at h
            have hxi := parseIntPart_append hip hr1ne t
            have hxf := parseFrac_append hf hr2ne hdot t
            have hxe := parseExp_append he hr t
            simp [List.cons_append, parseNumber, hm, hxi, hxf, hxe]
      · simp only [hm, if_false] at h
        match hip : parseIntPart (c :: rest) with
        | none => rw [hip] at h; cases h
        | some (i, r1) =>
            rw [hip] at h
            rcases hf : parseFrac r1 with ⟨f, r2⟩
            rcases he : parseExp r2 with ⟨e, r3⟩
            simp only [hf, he, Option.some.injEq, Prod.mk.injEq] at h
            obtain ⟨rfl, rfl⟩ := h
            have hr2ne : r2 ≠ [] := by
              intro hbad
              rw [hbad] at he
              simp only [parseExp, Prod.mk.injEq] at he
              exact hr3ne he.2.symm
            have hr1ne : r1 ≠ [] := by
              intro hbad
              rw [hbad] at hf
              simp only [parseFrac, Prod.mk.injEq] at hf
              exact hr2ne hf.2.symm
            have hdot : ∀ y, r2 ≠ '.' :: y := by
              intro y hbad
              rcases parseExp_shape he with ⟨rfl, rfl⟩ | ⟨c2, rest2, heq, hc2⟩
              · rw [hbad] at hr
                simp [numStopped] at hr
              · rw [hbad] at heq
                cases heq
                rcases hc2 with h | h <;> simp at h
            have hxi := parseIntPart_append hip hr1ne t
            have hxf := parseFrac_append hf hr2ne hdot t
            have hxe := parseExp_append he hr t
            rw [List.cons_append]
            have : parseIntPart (c :: (rest ++ t)) = some (i, r1 ++ t) := by
              rw [← List.cons_append]
              exact hxi
            simp [parseNumber, hm, this, hxf, hxe]

theorem numStopped_of_skipWs {x : List Char} {c : Char} {y : List Char}
    (h : skipWs x = c :: y) (h1 : ¬ c = '.') (h2 : ¬ c = 'e') (h3 : ¬ c = 'E')
    (h4 : c.isDigit = false) : numStopped x := by
  match x with
  | [] => simp [skipWs] at h
  | d :: x2 =>
      simp only [skipWs] at h
      by_cases hd : isJsonWs d = true
      · have : d = ' ' ∨ d = '\t' ∨ d = '\n' ∨ d = '\r' := by
          simpa [isJsonWs] using hd
        rcases this with rfl | rfl | rfl | rfl <;>
          exact ⟨by decide, by decide, by decide, by decide⟩
      · simp only [hd, if_false, Bool.false_eq_true] at h
        cases h
        exact ⟨h1, h2, h3, h4⟩

theorem parseMembers_shape {f : Nat} {s : List Char} {acc : List (String × Json)}
    {x : Json × List Char} (h : parseMembers f s acc = some x) :
    ∃ y, skipWs s = '\"' :: y := by
  match f with
  | 0 => simp [parseMembers] at h
  | Nat.succ n =>
      simp only [parseMembers] at h
      split at h
      · cases h
      · next c r heq =>
          split at h
          · next hc => exact ⟨r, by rw [heq, hc]⟩
          · cases h

theorem parseMembers_obj : ∀ {f : Nat} {s : List Char} {acc : List (String × Json)}
    {v : Json} {r : List Char}, parseMembers f s acc = some (v, r) →
    ∃ flds, v = Json.obj flds := by
  intro f
  induction f with
  | zero => intro s acc v r h; simp [parseMembers] at h
  | succ n ih =>
      intro s acc v r h
      simp only [parseMembers] at h
      repeat' split at h
      all_goals first
        | exact ih h
        | (simp only [Option.some.injEq, Prod.mk.injEq] at h
           exact ⟨_, h.1.symm⟩)
        | (cases h
           try exact ⟨_, rfl⟩)

theorem parseElems_arr : ∀ {f : Nat} {s : List Char} {acc : List Json}
    {v : Json} {r : List Char}, parseElems f s acc = some (v, r) →
    ∃ l, v = Json.arr l := by
  intro f
  induction f with
  | zero => intro s acc v r h; simp [parseElems] at h
  | succ n ih =>
      intro s acc v r h
      simp only [parseElems] at h
      repeat' split at h
      all_goals first
        | exact ih h
        | (simp only [Option.some.injEq, Prod.mk.injEq] at h
           exact ⟨_, h.1.symm⟩)
        | (cases h
           try exact ⟨_, rfl⟩)

theorem parseNumber_head {c : Char} {y : List Char} {x : List Char × List Char}
    (h : parseNumber (c :: y) = some x) :
    c = '-' ∨ c = '0' ∨ c.isDigit = true := by
  simp only [parseNumber] at h
  by_cases hm : c = '-'
  · exact Or.inl hm
  · simp only [hm, if_false] at h
    right
    rcases hip : parseIntPart (c :: y) with _ | ⟨i, r1⟩
    · rw [hip] at h; cases h
    · simp only [parseIntPart] at hip
      by_cases h0 : c = '0'
      · exact Or.inl h0
      · by_cases hd : c.isDigit = true
        · exact Or.inr hd
        · simp [h0, hd] at hip

theorem parseValue_head {f : Nat} {s : List Char} {x : Json × List Char}
    (h : parseValue f s = some x) :
    ∃ c y, skipWs s = c :: y ∧ ¬ c = ']' ∧ ¬ c = '\x7d' ∧ ¬ c = ',' := by
  match f with
  | 0 => simp [parseValue] at h
  | Nat.succ n =>
      simp only [parseValue] at h
      rcases hskip : skipWs s with _ | ⟨c, r⟩
      · rw [hskip] at h; cases h
      · rw [hskip] at h
        refine ⟨c, r, rfl, ?_⟩
        by_cases h1 : c = '\x7b'
        · subst h1; exact ⟨by decide, by decide, by decide⟩
        by_cases h2 : c = '['
        · subst h2; exact ⟨by decide, by decide, by decide⟩
        by_cases h3 : c = '\"'
        · subst h3; exact ⟨by decide, by decide, by decide⟩
        by_cases h4 : c = 't'
        · subst h4; exact ⟨by decide, by decide, by decide⟩
        by_cases h5 : c = 'f'
        · subst h5; exact ⟨by decide, by decide, by decide⟩
        by_cases h6 : c = 'n'
        · subst h6; exact ⟨by decide, by decide, by decide⟩
        · simp only [h1, h2, h3, h4, h5, h6, if_false] at h
          rcases hnp : parseNumber (c :: r) with _ | ⟨lex, r2⟩
          · rw [hnp] at h; cases h
          · rcases parseNumber_head hnp with rfl | rfl | hd
            · exact ⟨by decide, by decide, by decide⟩
            · exact ⟨by decide, by decide, by decide⟩
            · refine ⟨?_, ?_, ?_⟩ <;> intro hbad <;> subst hbad <;> simp at hd

theorem parseElems_shape {f : Nat} {s : List Char} {acc : List Json}
    {x : Json × List Char} (h : parseElems f s acc = some x) :
    ∃ c y, skipWs s = c :: y ∧ ¬ c = ']' := by
  match f with
  | 0 => simp [parseElems] at h
  | Nat.succ n =>
      simp only [parseElems] at h
      rcases hpv : parseValue n s with _ | ⟨v, r⟩
      · rw [hpv] at h; cases h
      · obtain ⟨c, y, hsk, hc, _, _⟩ := parseValue_head hpv
        exact ⟨c, y, hsk, hc⟩

/-- Right-extension of the parser: a parse that succeeded on `s` succeeds
identically on `s ++ t`, with the remainder extended, for any fuel at
least as large.  The one exception — a number lexeme that ran to the end
of `s` and that `t` could extend — is excluded by the `numStopped` side
condition; inner values of objects and arrays always satisfy it because
their successful parse is followed by a delimiter. -/
theorem parserExt : ∀ fuel : Nat,
    (∀ fuel2 s t v r, fuel ≤ fuel2 → parseValue fuel s = some (v, r) →
      (v.isNumber = true → numStopped r) →
      parseValue fuel2 (s ++ t) = some (v, r ++ t)) ∧
    (∀ fuel2 s acc t v r, fuel ≤ fuel2 → parseMembers fuel s acc = some (v, r) →
      parseMembers fuel2 (s ++ t) acc = some (v, r ++ t)) ∧
    (∀ fuel2 s acc t v r, fuel ≤ fuel2 → parseElems fuel s acc = some (v, r) →
      parseElems fuel2 (s ++ t) acc = some (v, r ++ t)) := by
  intro fuel
  induction fuel with
  | zero =>
      refine ⟨?_, ?_, ?_⟩
      · intro fuel2 s t v r _ h _
        simp [parseValue] at h
      · intro fuel2 s acc t v r _ h
        simp [parseMembers] at h
      · intro fuel2 s acc t v r _ h
        simp [parseElems] at h
  | succ n ih =>
      obtain ⟨ihv, ihm, ihe⟩ := ih
      refine ⟨?_, ?_, ?_⟩
      · -- parseValue
        intro fuel2 s t v r hle h hnum
        obtain ⟨m, rfl⟩ : ∃ m, fuel2 = m + 1 :=
          ⟨fuel2 - 1, (Nat.succ_pred_eq_of_pos
            (Nat.lt_of_lt_of_le (Nat.succ_pos n) hle)).symm⟩
        have hm : n ≤ m := Nat.succ_le_succ_iff.mp hle
        simp only [parseValue] at h
        rcases hskip : skipWs s with _ | ⟨c, r0⟩
        · rw [hskip] at h; cases h
        · rw [hskip] at h
          have hgskip := skipWs_append_of_cons hskip t
          simp only [parseValue, hgskip]
          by_cases hc1 : c = '\x7b'
          · simp only [hc1, if_true] at h ⊢
            rcases hskip2 : skipWs r0 with _ | ⟨d, r2⟩
            · rw [hskip2] at h
              -- h : parseMembers n r0 [] = some (v, r); but members needs a quote
              obtain ⟨y, hy⟩ := parseMembers_shape h
              rw [hskip2] at hy
              cases hy
            · rw [hskip2] at h
              by_cases hd : d = '\x7d'
              · simp only [hd, if_true, Option.some.injEq, Prod.mk.injEq] at h
                obtain ⟨rfl, rfl⟩ := h
                rw [skipWs_append_of_cons hskip2 t]
                simp [hd]
              · simp only [hd, if_false] at h
                obtain ⟨y, hy⟩ := parseMembers_shape h
                rw [skipWs_append_of_cons hy t]
                have : ¬ ('\"' : Char) = '\x7d' := by decide
                simp only [this, if_false]
                exact ihm m r0 [] t v r hm h
          · by_cases hc2 : c = '['
            · simp only [hc1, if_false, hc2, if_true] at h ⊢
              rcases hskip2 : skipWs r0 with _ | ⟨d, r2⟩
              · rw [hskip2] at h
                obtain ⟨c2, y, hy, _⟩ := parseElems_shape h
                rw [hskip2] at hy
                cases hy
              · rw [hskip2] at h
                by_cases hd : d = ']'
                · simp only [hd, if_true, Option.some.injEq, Prod.mk.injEq] at h
                  obtain ⟨rfl, rfl⟩ := h
                  rw [skipWs_append_of_cons hskip2 t]
                  simp [hd]
                · simp only [hd, if_false] at h
                  obtain ⟨c2, y, hy, hc2ne⟩ := parseElems_shape h
                  rw [skipWs_append_of_cons hy t]
                  simp only [hc2ne, if_false]
                  exact ihe m r0 [] t v r hm h
            · by_cases hc3 : c = '\"'
              · simp only [hc1, hc2, if_false, hc3, if_true] at h ⊢
                rcases hsb : parseStringBody r0 with _ | ⟨cs, r2⟩
                · rw [hsb] at h; cases h
                · rw [hsb] at h
                  simp only [Option.some.injEq, Prod.mk.injEq] at h
                  obtain ⟨rfl, rfl⟩ := h
                  rw [parseStringBody_append hsb t]
                  simp [hc1, hc2]
              · by_cases hc4 : c = 't'
                · simp only [hc1, hc2, hc3, if_false, hc4, if_true] at h ⊢
                  rcases hdl : dropLit ['r', 'u', 'e'] r0 with _ | r2
                  · rw [hdl] at h; cases h
                  · rw [hdl] at h
                    simp only [Option.some.injEq, Prod.mk.injEq] at h
                    obtain ⟨rfl, rfl⟩ := h
                    rw [dropLit_append hdl t]
                    simp [hc1, hc2, hc3]
                · by_cases hc5 : c = 'f'
                  · simp only [hc1, hc2, hc3, hc4, if_false, hc5, if_true] at h ⊢
                    rcases hdl : dropLit ['a', 'l', 's', 'e'] r0 with _ | r2
                    · rw [hdl] at h; cases h
                    · rw [hdl] at h
                      simp only [Option.some.injEq, Prod.mk.injEq] at h
                      obtain ⟨rfl, rfl⟩ := h
                      rw [dropLit_append hdl t]
                      simp [hc1, hc2, hc3, hc4]
                  · by_cases hc6 : c = 'n'
                    · simp only [hc1, hc2, hc3, hc4, hc5, if_false, hc6, if_true] at h ⊢
                      rcases hdl : dropLit ['u', 'l', 'l'] r0 with _ | r2
                      · rw [hdl] at h; cases h
                      · rw [hdl] at h
                        simp only [Option.some.injEq, Prod.mk.injEq] at h
                        obtain ⟨rfl, rfl⟩ := h
                        rw [dropLit_append hdl t]
                        simp [hc1, hc2, hc3, hc4, hc5]
                    · simp only [hc1, hc2, hc3, hc4, hc5, hc6, if_false] at h ⊢
                      rcases hnp : parseNumber (c :: r0) with _ | ⟨lex, r2⟩
                      · rw [hnp] at h; cases h
                      · rw [hnp] at h
                        simp only [Option.some.injEq, Prod.mk.injEq] at h
                        obtain ⟨rfl, rfl⟩ := h
                        have hstop := hnum (by simp [Json.isNumber])
                        have hx := parseNumber_append hnp hstop t
                        rw [← List.cons_append, hx]
      · -- parseMembers
        intro fuel2 s acc t v r hle h
        obtain ⟨m, rfl⟩ : ∃ m, fuel2 = m + 1 :=
          ⟨fuel2 - 1, (Nat.succ_pred_eq_of_pos
            (Nat.lt_of_lt_of_le (Nat.succ_pos n) hle)).symm⟩
        have hm : n ≤ m := Nat.succ_le_succ_iff.mp hle
        simp only [parseMembers] at h
        rcases hskip : skipWs s with _ | ⟨c, r0⟩
        · rw [hskip] at h; cases h
        · rw [hskip] at h
          have hgskip := skipWs_append_of_cons hskip t
          simp only [parseMembers, hgskip]
          by_cases hc : c = '\"'
          · simp only [hc, if_true] at h ⊢
            rcases hsb : parseStringBody r0 with _ | ⟨key, r2⟩
            · rw [hsb] at h; cases h
            · rw [hsb] at h
              simp only at h
              rw [parseStringBody_append hsb t]
              simp only
              rcases hskip2 : skipWs r2 with _ | ⟨d, r3⟩
              · rw [hskip2] at h; cases h
              · rw [hskip2] at h
                rw [skipWs_append_of_cons hskip2 t]
                by_cases hd : d = ':'
                · simp only [hd, if_true] at h ⊢
                  rcases hpv : parseValue n r3 with _ | ⟨v1, r4⟩
                  · rw [hpv] at h; cases h
                  · rw [hpv] at h
                    simp only at h
                    rcases hskip3 : skipWs r4 with _ | ⟨d2, r5⟩
                    · rw [hskip3] at h; cases h
                    · rw [hskip3] at h
                      by_cases hd2 : d2 = ','
                      · simp only [hd2, if_true] at h
                        have hstop : numStopped r4 := by
                          subst hd2
                          exact numStopped_of_skipWs hskip3
                            (by decide) (by decide) (by decide) (by decide)
                        have hxv := ihv m r3 t v1 r4 hm hpv (fun _ => hstop)
                        rw [hxv]
                        simp only
                        rw [skipWs_append_of_cons hskip3 t]
                        simp only [hd2, if_true]
                        exact ihm m r5 (acc ++ [(String.mk key, v1)]) t v r hm h
                      · by_cases hd3 : d2 = '\x7d'
                        · simp only [hd2, if_false, hd3, if_true,
                            Option.some.injEq, Prod.mk.injEq] at h
                          obtain ⟨rfl, rfl⟩ := h
                          have hstop : numStopped r4 := by
                            subst hd3
                            exact numStopped_of_skipWs hskip3
                              (by decide) (by decide) (by decide) (by decide)
                          have hxv := ihv m r3 t v1 r4 hm hpv (fun _ => hstop)
                          rw [hxv]
                          simp only
                          rw [skipWs_append_of_cons hskip3 t]
                          simp [hd2, hd3]
                        · simp [hd2, hd3] at h
                · simp [hd] at h
          · simp [hc] at h
      · -- parseElems
        intro fuel2 s acc t v r hle h
        obtain ⟨m, rfl⟩ : ∃ m, fuel2 = m + 1 :=
          ⟨fuel2 - 1, (Nat.succ_pred_eq_of_pos
            (Nat.lt_of_lt_of_le (Nat.succ_pos n) hle)).symm⟩
        have hm : n ≤ m := Nat.succ_le_succ_iff.mp hle
        simp only [parseElems] at h
        rcases hpv : parseValue n s with _ | ⟨v1, r1⟩
        · rw [hpv] at h; cases h
        · rw [hpv] at h
          simp only at h
          rcases hskip : skipWs r1 with _ | ⟨d, r2⟩
          · rw [hskip] at h; cases h
          · rw [hskip] at h
            by_cases hd : d = ','
            · simp only [hd, if_true] at h
              have hstop : numStopped r1 := by
                subst hd
                exact numStopped_of_skipWs hskip
                  (by decide) (by decide) (by decide) (by decide)
              have hxv := ihv m s t v1 r1 hm hpv (fun _ => hstop)
              simp only [parseElems, hxv]
              rw [skipWs_append_of_cons hskip t]
              simp only [hd, if_true]
              exact ihe m r2 (acc ++ [v1]) t v r hm h
            · by_cases hd2 : d = ']'
              · simp only [hd, if_false, hd2, if_true,
                  Option.some.injEq, Prod.mk.injEq] at h
                obtain ⟨rfl, rfl⟩ := h
                have hstop : numStopped r1 := by
                  subst hd2
                  exact numStopped_of_skipWs hskip
                    (by decide) (by decide) (by decide) (by decide)
                have hxv := ihv m s t v1 r1 hm hpv (fun _ => hstop)
                simp only [parseElems, hxv]
                rw [skipWs_append_of_cons hskip t]
                simp [hd, hd2]
              · simp [hd, hd2] at h

/-- A parse producing an object starts, after whitespace, with an opening
brace. -/
theorem parseValue_obj_head {f : Nat} {s : List Char} {o : List (String × Json)}
    {r : List Char} (h : parseValue f s = some (Json.obj o, r)) :
    ∃ y, skipWs s = '\x7b' :: y := by
  match f with
  | 0 => simp [parseValue] at h
  | Nat.succ n =>
      simp only [parseValue] at h
      rcases hskip : skipWs s with _ | ⟨c, r0⟩
      · rw [hskip] at h; cases h
      · rw [hskip] at h
        by_cases hc1 : c = '\x7b'
        · exact ⟨r0, by rw [hc1]⟩
        · exfalso
          simp only [hc1, if_false] at h
          by_cases hc2 : c = '['
          · simp only [hc2, if_true] at h
            rcases hskip2 : skipWs r0 with _ | ⟨d, r2⟩
            · rw [hskip2] at h
              obtain ⟨l, hl⟩ := parseElems_arr h
              cases hl
            · rw [hskip2] at h
              by_cases hd : d = ']'
              · simp [hd] at h
              · simp only [hd, if_false] at h
                obtain ⟨l, hl⟩ := parseElems_arr h
                cases hl
          · simp only [hc2, if_false] at h
            by_cases hc3 : c = '\"'
            · simp only [hc3, if_true] at h
              rcases hsb : parseStringBody r0 with _ | ⟨cs, r2⟩
              · simp [hsb] at h
              · simp [hsb] at h
            · simp only [hc3, if_false] at h
              by_cases hc4 : c = 't'
              · simp only [hc4, if_true] at h
                rcases hdl : dropLit ['r', 'u', 'e'] r0 with _ | r2 <;> simp [hdl] at h
              · simp only [hc4, if_false] at h
                by_cases hc5 : c = 'f'
                · simp only [hc5, if_true] at h
                  rcases hdl : dropLit ['a', 'l', 's', 'e'] r0 with _ | r2 <;>
                    simp [hdl] at h
                · simp only [hc5, if_false] at h
                  by_cases hc6 : c = 'n'
                  · simp only [hc6, if_true] at h
                    rcases hdl : dropLit ['u', 'l', 'l'] r0 with _ | r2 <;>
                      simp [hdl] at h
                  · simp only [hc6, if_false] at h
                    rcases hnp : parseNumber (c :: r0) with _ | ⟨lex, r2⟩ <;>
                      simp [hnp] at h

/-- Conversely, a parse of input whose first significant character is an
opening brace can only produce an object. -/
theorem parseValue_head_obj {f : Nat} {s y : List Char} {v : Json} {r : List Char}
    (hskip : skipWs s = '\x7b' :: y) (h : parseValue f s = some (v, r)) :
    ∃ o, v = Json.obj o := by
  match f with
  | 0 => simp [parseValue] at h
  | Nat.succ n =>
      simp only [parseValue, hskip] at h
      rcases hskip2 : skipWs y with _ | ⟨d, r2⟩
      · rw [hskip2] at h
        exact parseMembers_obj h
      · rw [hskip2] at h
        by_cases hd : d = '\x7d'
        · simp only [hd, if_true, Option.some.injEq, Prod.mk.injEq] at h
          exact ⟨[], h.1.symm⟩
        · simp only [hd, if_false] at h
          exact parseMembers_obj h

/-- An all-whitespace string never parses. -/
theorem jsonParse_ws_none {s : List Char} (h : skipWs s = []) : jsonParse s = none := by
  have : parseValue (parseFuel s) s = none := by
    rcases hf : parseFuel s with _ | n
    · simp [parseValue]
    · simp [parseValue, h]
  simp [jsonParse, this]

/-- Appending to a successfully parsed object document can only reproduce
the same value (when the appended text is whitespace) or fail; it can
never change the parsed object.  This is what makes the decoder's
"publish once per successful parse, reparse the grown buffer" loop
stable. -/
theorem jsonParse_append_obj {s t : List Char} {o : List (String × Json)} {w : Json}
    (h : jsonParse s = some (Json.obj o)) (hw : jsonParse (s ++ t) = some w) :
    w = Json.obj o := by
  unfold jsonParse at h
  rcases hpv : parseValue (parseFuel s) s with _ | ⟨v, r⟩
  · rw [hpv] at h; cases h
  · rw [hpv] at h
    by_cases hws : skipWs r = []
    · simp only [hws, if_true, Option.some.injEq] at h
      subst h
      have hfle : parseFuel s ≤ parseFuel (s ++ t) := by
        simp [parseFuel, Nat.add_le_add_iff_right, Nat.mul_le_mul_left]
      have hx := (parserExt (parseFuel s)).1 (parseFuel (s ++ t)) s t _ r hfle hpv
        (fun hbad => by simp [Json.isNumber] at hbad)
      unfold jsonParse at hw
      rw [hx] at hw
      by_cases hws2 : skipWs (r ++ t) = []
      · simp only [hws2, if_true, Option.some.injEq] at hw
        exact hw.symm
      · simp [hws2] at hw
    · simp [hws] at h

/-- A proper prefix of an object document with a significant character
left over never parses on its own. -/
theorem jsonParse_prefix_none {a b : List Char} {v : Json}
    (hv : jsonParse (a ++ b) = some v) (hobj : v.isObj = true)
    (hb : ∃ c ∈ b, isJsonWs c = false) : jsonParse a = none := by
  obtain ⟨o, rfl⟩ : ∃ o, v = Json.obj o := by
    cases v
    case obj o => exact ⟨o, rfl⟩
    all_goals simp [Json.isObj] at hobj
  rcases hcase : jsonParse a with _ | u
  · rfl
  · exfalso
    -- the full parse gives the brace head of `a ++ b`
    unfold jsonParse at hv
    rcases hpv : parseValue (parseFuel (a ++ b)) (a ++ b) with _ | ⟨v2, r2⟩
    · rw [hpv] at hv; cases hv
    · rw [hpv] at hv
      by_cases hws : skipWs r2 = []
      · simp only [hws, if_true, Option.some.injEq] at hv
        subst hv
        obtain ⟨y, hy⟩ := parseValue_obj_head hpv
        -- `a` parses too: its head is the same brace
        unfold jsonParse at hcase
        rcases hpa : parseValue (parseFuel a) a with _ | ⟨u2, ra⟩
        · rw [hpa] at hcase; cases hcase
        · rw [hpa] at hcase
          by_cases hwsa : skipWs ra = []
          · simp only [hwsa, if_true, Option.some.injEq] at hcase
            subst hcase
            rcases hska : skipWs a with _ | ⟨ca, ya⟩
            · -- `a` is all whitespace, so it cannot parse
              rcases hfa : parseFuel a with _ | n
              · simp [parseFuel] at hfa
              · rw [hfa] at hpa
                simp [parseValue, hska] at hpa
            · have hcons := skipWs_append_of_cons hska b
              rw [hy] at hcons
              injection hcons with h1 h2
              rw [← h1] at hska
              obtain ⟨o2, rfl⟩ := parseValue_head_obj hska hpa
              have hfle : parseFuel a ≤ parseFuel (a ++ b) := by
                simp only [parseFuel, List.length_append]
                omega
              have hx := (parserExt (parseFuel a)).1 (parseFuel (a ++ b)) a b _ ra hfle hpa
                (fun hbad => by simp [Json.isNumber] at hbad)
              rw [hx] at hpv
              simp only [Option.some.injEq, Prod.mk.injEq] at hpv
              obtain ⟨_, hr2⟩ := hpv
              rw [← hr2, skipWs_append_of_nil hwsa b] at hws
              obtain ⟨cbad, hmem, hnw⟩ := hb
              have hbad := skipWs_eq_nil_iff.mp hws cbad hmem
              rw [hbad] at hnw
              cases hnw
          · simp [hwsa] at hcase
      · simp [hws] at hv

/-! ## Decoder plumbing lemmas -/

theorem getProp_some_obj {v : Json} {k : String} {x : Json}
    (h : getProp v k = some x) : ∃ flds, v = Json.obj flds := by
  cases v <;> simp [getProp] at h
  case obj flds => exact ⟨flds, rfl⟩

theorem splitOnNl_no_newline {l : List Char} (h : '\n' ∉ l) : splitOnNl l = [l] := by
  induction l with
  | nil => rfl
  | cons c cs ih =>
      simp only [List.mem_cons, not_or] at h
      simp only [splitOnNl]
      rw [if_neg (fun hbad => h.1 hbad.symm), ih h.2]

theorem processChunk_single {st : DecState} {line : List Char}
    (hnl : '\n' ∉ line) (htrim : jsTrimNonempty line = true) :
    processChunk st line = processLine st line := by
  unfold processChunk
  rw [splitOnNl_no_newline hnl]
  simp [processLines, htrim]

/-- Dispatch of one line that parsed as a `response` frame. -/
theorem processLine_response {st : DecState} {line : List Char} {data : Json}
    (hparse : jsonParse line = some data)
    (htype : getProp data "type" = some (Json.str "response")) :
    processLine st line =
      applyResponseFrame st (jsContentText (getProp data "content")) := by
  obtain ⟨flds, rfl⟩ := getProp_some_obj htype
  unfold processLine
  rw [hparse]
  simp only
  rw [if_neg (by simp), if_neg (by rw [htype]; simp), if_pos htype]


/-! ## Claim theorems -/

/-- C6: `getBoundingBoxStyle` returns `none` exactly when the page (or
its scroll container) is not mounted/measured; otherwise the rectangle's
top-left is the page's on-screen top-left plus
`(segment.left * scale_x, segment.top * scale_y)` and its size is
`(segment.width * scale_x, segment.height * scale_y)` with
`scale_x = onscreen_width / source_page_width` and
`scale_y = onscreen_height / source_page_height`; in particular a
segment `top=100, left=50, width=200, height=30` on a 600×800 source
page rendered at 300×400 with on-screen origin `(10, 20)` projects to
`{left := 35, top := 70, width := 100, height := 15}`. -/
theorem bounding_box_projection :
    (∀ box : BBoxItem, getBoundingBoxStyle box none = none) ∧
    (∀ (box : BBoxItem) (pr : DomRect),
      getBoundingBoxStyle box (some ⟨pr, none⟩) = none) ∧
    (∀ (box : BBoxItem) (pr cr : DomRect),
      getBoundingBoxStyle box (some ⟨pr, some cr⟩) =
        some
          { width := box.bbox.width * (pr.width / box.page_width)
            height := box.bbox.height * (pr.height / box.page_height)
            left := (pr.left - cr.left) + box.bbox.left * (pr.width / box.page_width)
            top := (pr.top - cr.top) + box.bbox.top * (pr.height / box.page_height) }) ∧
    getBoundingBoxStyle ⟨⟨100, 50, 200, 30⟩, 1, "seg", 600, 800⟩
        (some ⟨⟨20, 10, 300, 400⟩, some ⟨0, 0, 800, 600⟩⟩) =
      some ⟨100, 15, 35, 70⟩ := by
  refine ⟨fun box => rfl, fun box pr => rfl, fun box pr cr => rfl, ?_⟩
  norm_num [getBoundingBoxStyle]

theorem debounce_all_close {α : Type} :
    ∀ (cur : Nat × α) (rest : List (Nat × α)),
      List.Chain' (fun p q : Nat × α => q.1 < p.1 + debounceDelay) (cur :: rest) →
      debounceFiresFrom cur rest = [(cur :: rest).getLast (by simp)] := by
  intro cur rest
  induction rest generalizing cur with
  | nil => intro _; rfl
  | cons nxt rest2 ih =>
      intro hchain
      rw [List.chain'_cons] at hchain
      simp only [debounceFiresFrom]
      rw [if_neg (by omega)]
      rw [ih nxt hchain.2]
      simp [List.getLast]


/-- C7: `scrollToPage` is debounced last-write-wins: in any burst of
invocations in which each successor arrives before the previous timer's
300 ms deadline, exactly the last invocation's timer fires; and the fired
callback, when the hovered segment's page and bounding box resolve,
scrolls to `offsetTop + (bbox.top / page_height) * measured_page_height -
0.1 * container_height`. -/
theorem scroll_debounce_last_write_wins :
    (∀ (invs : List (Nat × Nat)) (hne : invs ≠ []),
      List.Chain' (fun p q : Nat × Nat => q.1 < p.1 + debounceDelay) invs →
      debounceFires invs = [invs.getLast hne]) ∧
    (∀ (bboxes : List BBoxItem) (snap : ViewerSnapshot) (pageNumber : Nat)
       (cont : DomRect) (pg : PageSnapshot) (hid : String) (b : BBoxItem),
      snap.containerRect = some cont →
      snap.page pageNumber = some pg →
      snap.hoveredChunkId = some hid →
      bboxes.find? (fun bb => bb.id = hid ∧ bb.page_number = pageNumber) = some b →
      scrollCallback bboxes snap pageNumber =
        ScrollAction.scrollTo
          (pg.offsetTop + pg.rect.height * (b.bbox.top / b.page_height) -
            cont.height * (1 / 10))) := by
  constructor
  · intro invs hne hchain
    match invs, hne with
    | i :: rest, _ => exact debounce_all_close i rest hchain
  · intro bboxes snap pageNumber cont pg hid b h1 h2 h3 h4
    unfold scrollCallback
    rw [h1, h2]
    simp only [h3, h4]

/-- Witness for C7: five invocations within 100 ms collapse to one scroll
at the last page, and a concrete geometry resolves to the formula's
value. -/
theorem scroll_debounce_last_write_wins_witness :
    debounceFires [(0, 1), (25, 2), (50, 3), (75, 4), (100, 5)] = [(100, 5)] ∧
    scrollCallback [⟨⟨100, 50, 200, 30⟩, 2, "seg", 600, 800⟩]
      ⟨some ⟨0, 0, 400, 500⟩,
        fun p => if p = 2 then some ⟨1000, ⟨0, 0, 300, 400⟩⟩ else none,
        some "seg"⟩ 2 = ScrollAction.scrollTo 1000 := by
  constructor
  · exact scroll_debounce_last_write_wins.1
      [(0, 1), (25, 2), (50, 3), (75, 4), (100, 5)] (by decide)
      (by simp [List.chain'_cons, List.chain'_singleton, debounceDelay])
  · have h := scroll_debounce_last_write_wins.2
      [⟨⟨100, 50, 200, 30⟩, 2, "seg", 600, 800⟩]
      ⟨some ⟨0, 0, 400, 500⟩,
        fun p => if p = 2 then some ⟨1000, ⟨0, 0, 300, 400⟩⟩ else none,
        some "seg"⟩ 2 ⟨0, 0, 400, 500⟩ ⟨1000, ⟨0, 0, 300, 400⟩⟩ "seg"
      ⟨⟨100, 50, 200, 30⟩, 2, "seg", 600, 800⟩ rfl (by simp) rfl (by simp)
    rw [h]
    norm_num

theorem spanDigits_all {ds : List Char} (h : ∀ c ∈ ds, c.isDigit = true)
    {c : Char} {r : List Char} (hc : c.isDigit = false) :
    spanDigits (ds ++ c :: r) = (ds, c :: r) := by
  induction ds with
  | nil => simp [spanDigits, hc]
  | cons d ds2 ih =>
      have hd : d.isDigit = true := h d (by simp)
      simp [List.cons_append, spanDigits, hd, ih (fun x hx => h x (by simp [hx]))]

/-- C8: a citation marker `[n]` parses to the single number `n`, which
`Citation` resolves to the `(n-1)`-th entry (0-based) of the citation-id
list current at render time; an out-of-range `n` resolves to no id, and
the click handler then leaves the hovered id unchanged (and none of this
can throw — the functions are total). -/
theorem citation_marker_resolution :
    (∀ ds : List Char, ds ≠ [] → (∀ c ∈ ds, c.isDigit = true) →
      markerNumbers ('[' :: (ds ++ [']'])) = some [digitsToNat ds]) ∧
    (∀ (l : List Json) (n : Nat), 1 ≤ n →
      citationChunkId (Json.arr l) n = l.get? (n - 1)) ∧
    (∀ (l : List Json) (n : Nat), l.length < n →
      citationChunkId (Json.arr l) n = none) ∧
    (∀ h : Option Json, citationClick h none = h) := by
  refine ⟨?_, ?_, ?_, fun h => rfl⟩
  · intro ds hne hdig
    have hsp : spanDigits (ds ++ [']']) = (ds, [']']) := spanDigits_all hdig (by decide)
    unfold markerNumbers
    simp only [markerLoop, hsp]
    simp [hne]
  · intro l n hn
    simp only [citationChunkId]
    rw [if_neg (by omega)]
    congr 1
    omega
  · intro l n hlen
    simp only [citationChunkId]
    by_cases h0 : ((n : Int) - 1) < 0
    · rw [if_pos h0]
    · rw [if_neg h0]
      rw [List.get?_eq_none]
      omega

/-- C9: `validateApiKeys` succeeds iff all three stored keys are
non-empty, `missingKeys` holds exactly the names of the empty ones, and
`handleSubmit` with input present is blocked — with the single aggregated
message listing the missing names — exactly when validation fails. -/
theorem api_keys_checked (k : ApiKeys) :
    ((validateApiKeys k).1 = true ↔
      (k.openai ≠ "" ∧ k.openrouter ≠ "" ∧ k.chunkr ≠ "")) ∧
    (∀ name, name ∈ (validateApiKeys k).2 ↔
      ((name = "OpenAI" ∧ k.openai = "") ∨ (name = "OpenRouter" ∧ k.openrouter = "") ∨
        (name = "Chunkr" ∧ k.chunkr = ""))) ∧
    (∀ (hasFile : Bool) (url : String) (uv : String → Bool),
      (hasFile = true ∨ (url ≠ "" ∧ uv url = true)) →
      (validateApiKeys k).1 = false →
      handleSubmitGate hasFile url uv k =
        SubmitOutcome.blocked
          ("Missing API keys: " ++ String.intercalate ", " (validateApiKeys k).2 ++
            ". Please configure them first.")) ∧
    (∀ (hasFile : Bool) (url : String) (uv : String → Bool),
      (hasFile = true ∨ (url ≠ "" ∧ uv url = true)) →
      (validateApiKeys k).1 = true →
      handleSubmitGate hasFile url uv k = SubmitOutcome.proceeds) := by
  refine ⟨?_, ?_, ?_, ?_⟩
  · by_cases h1 : k.openai = "" <;> by_cases h2 : k.openrouter = "" <;>
      by_cases h3 : k.chunkr = "" <;> simp [validateApiKeys, h1, h2, h3]
  · intro name
    by_cases h1 : k.openai = "" <;> by_cases h2 : k.openrouter = "" <;>
      by_cases h3 : k.chunkr = "" <;>
      simp [validateApiKeys, h1, h2, h3]
  · intro hasFile url uv hinput hinvalid
    unfold handleSubmitGate
    rw [if_neg (by rcases hinput with h | ⟨h1, h2⟩ <;> simp_all)]
    rw [if_pos (by simp [hinvalid])]
  · intro hasFile url uv hinput hvalid
    unfold handleSubmitGate
    rw [if_neg (by rcases hinput with h | ⟨h1, h2⟩ <;> simp_all)]
    rw [if_neg (by simp [hvalid])]

/-- Witness for C9 at a concrete key state and submission. -/
theorem api_keys_checked_witness :
    ((validateApiKeys ⟨"sk", "", ""⟩).1 = true ↔
      (("sk" : String) ≠ "" ∧ ("" : String) ≠ "" ∧ ("" : String) ≠ "")) ∧
    ("OpenRouter" ∈ (validateApiKeys ⟨"sk", "", ""⟩).2 ↔
      ((("OpenRouter" : String) = "OpenAI" ∧ ("sk" : String) = "") ∨
        (("OpenRouter" : String) = "OpenRouter" ∧ ("" : String) = "") ∨
        (("OpenRouter" : String) = "Chunkr" ∧ ("" : String) = ""))) ∧
    handleSubmitGate true "" (fun _ => false) ⟨"sk", "", ""⟩ =
      SubmitOutcome.blocked
        ("Missing API keys: " ++
          String.intercalate ", " (validateApiKeys ⟨"sk", "", ""⟩).2 ++
          ". Please configure them first.") ∧
    handleSubmitGate true "" (fun _ => false) ⟨"a", "b", "c"⟩ =
      SubmitOutcome.proceeds := by
  refine ⟨(api_keys_checked ⟨"sk", "", ""⟩).1,
    (api_keys_checked ⟨"sk", "", ""⟩).2.1 "OpenRouter",
    (api_keys_checked ⟨"sk", "", ""⟩).2.2.1 true "" (fun _ => false)
      (Or.inl rfl) (by decide),
    (api_keys_checked ⟨"a", "b", "c"⟩).2.2.2 true "" (fun _ => false)
      (Or.inl rfl) (by decide)⟩


/-- Witness for C8: `[3]` resolves to the third entry; with fewer than
three entries the lookup is empty and a click changes nothing. -/
theorem citation_marker_resolution_witness :
    markerNumbers "[3]".data = some [3] ∧
    citationChunkId (Json.arr [Json.str "x", Json.str "y", Json.str "z"]) 3 =
      some (Json.str "z") ∧
    citationChunkId (Json.arr [Json.str "x"]) 3 = none ∧
    citationClick (some (Json.str "x")) none = some (Json.str "x") := by
  refine ⟨?_, ?_, ?_, citation_marker_resolution.2.2.2 (some (Json.str "x"))⟩
  · have h := citation_marker_resolution.1 ['3'] (by decide) (by decide)
    exact h.trans (by decide)
  · have h := citation_marker_resolution.2.1
      [Json.str "x", Json.str "y", Json.str "z"] 3 (by decide)
    exact h.trans (by decide)
  · exact citation_marker_resolution.2.2.1 [Json.str "x"] 3 (by decide)

end CC



namespace CC

theorem runChunks_single (st : DecState) (chunk : List Char) :
    runChunks st [chunk] = processChunk st chunk := by
  simp [runChunks]

/-- C1: a session fed exactly one complete `response`-type frame whose
content is the full document
`\x7b"metadata":\x7b"citations":["a","b"],"images":[]\x7d,"response":"hello"\x7d`
publishes the citation list `["a","b"]` (with the document's empty image
list) exactly once, publishes the answer text `"hello"` exactly once, and
the session's final returned text is `"hello"`. -/
theorem single_complete_response_frame (line : List Char) (store0 : MetadataRec)
    (frame : Json)
    (hparse : jsonParse line = some frame)
    (htype : getProp frame "type" = some (Json.str "response"))
    (hcontent : getProp frame "content" = some (Json.str c1Doc))
    (hnl : '\n' ∉ line) (htrim : jsTrimNonempty line = true) :
    ∃ res events,
      handleStreamingResponse (some [line]) store0 = Except.ok (res, events) ∧
      events.filter isMetaEvent =
        [DecEvent.pubMeta ⟨Json.arr [Json.str "a", Json.str "b"], Json.arr []⟩] ∧
      events.filter isTextEvent = [DecEvent.pubText (Json.str "hello")] ∧
      res.text = Json.str "hello" := by
  have hstep : processLine (initialState store0) line =
      applyResponseFrame (initialState store0) c1Doc := by
    rw [processLine_response hparse htype, hcontent]
    have hco : jsContentText (some (Json.str c1Doc)) = c1Doc := by
      simp [jsContentText, jsToText]
    rw [hco]
  have hdoc : jsonParse (([] : List Char) ++ c1Doc.data) = some c1DocJson := by decide
  have hmeta : getProp c1DocJson "metadata" =
      some (Json.obj [("citations", Json.arr [Json.str "a", Json.str "b"]),
        ("images", Json.arr [])]) := by decide
  have happ : applyResponseFrame (initialState store0) c1Doc =
      ({ result := Json.str "hello"
         responseImages := Json.arr []
         accumulated := c1Doc.data
         toolCalls := []
         store := ⟨Json.arr [Json.str "a", Json.str "b"], Json.arr []⟩ },
       [DecEvent.pubMeta ⟨Json.arr [Json.str "a", Json.str "b"], Json.arr []⟩,
        DecEvent.pubText (Json.str "hello")]) := by
    have f2 : jsTruthy (Json.obj [("citations", Json.arr [Json.str "a", Json.str "b"]),
        ("images", Json.arr [])]) = true := by decide
    have f3 : jsTruthyWithLength (getProp (Json.obj [("citations",
        Json.arr [Json.str "a", Json.str "b"]), ("images", Json.arr [])])
        "citations") = true := by decide
    have f4 : getProp (Json.obj [("citations", Json.arr [Json.str "a", Json.str "b"]),
        ("images", Json.arr [])]) "citations" =
        some (Json.arr [Json.str "a", Json.str "b"]) := by decide
    have f5 : jsOrElse (getProp (Json.obj [("citations",
        Json.arr [Json.str "a", Json.str "b"]), ("images", Json.arr [])]) "images")
        (Json.arr []) = Json.arr [] := by decide
    have f6 : jsTruthyWithLength (getProp (Json.obj [("citations",
        Json.arr [Json.str "a", Json.str "b"]), ("images", Json.arr [])])
        "images") = false := by decide
    have g1 : getProp (Json.obj [("citations", Json.arr [Json.str "a", Json.str "b"]),
        ("images", Json.arr [])]) "images" = some (Json.arr []) := by decide
    have g2 : jsTruthyWithLength (some (Json.arr [Json.str "a", Json.str "b"])) = true := by
      decide
    have g3 : jsTruthyWithLength (some (Json.arr [])) = false := by decide
    have g4 : jsOrElse (some (Json.arr [])) (Json.arr []) = Json.arr [] := by decide
    have f7 : getProp c1DocJson "response" = some (Json.str "hello") := by decide
    have f8 : jsTruthy (Json.str "hello") = true := by decide
    unfold applyResponseFrame
    simp only [initialState, List.nil_append] at hdoc ⊢
    rw [hdoc]
    simp only [applyParsedDoc, applyMetadata, hmeta, f2, if_true, citationsStep, f3, f4,
      f5, imagesStep, f6, g1, g2, g3, g4, Bool.false_eq_true, if_false, applyResponse,
      f7, f8, List.nil_append, List.append_nil]
    rfl
  have hmain : handleStreamingResponse (some [line]) store0 =
      Except.ok (⟨Json.str "hello", Json.arr [], []⟩,
        [DecEvent.pubMeta ⟨Json.arr [Json.str "a", Json.str "b"], Json.arr []⟩,
         DecEvent.pubText (Json.str "hello")]) := by
    unfold handleStreamingResponse
    simp only
    rw [runChunks_single, processChunk_single hnl htrim, hstep, happ]
  exact ⟨_, _, hmain, by decide, by decide, rfl⟩

end CC

namespace CC

/-- Witness for C1 at the concrete frame line. -/
theorem single_complete_response_frame_witness :
    ∃ res events,
      handleStreamingResponse (some [c1Line.data]) ⟨Json.arr [], Json.arr []⟩ =
        Except.ok (res, events) ∧
      events.filter isMetaEvent =
        [DecEvent.pubMeta ⟨Json.arr [Json.str "a", Json.str "b"], Json.arr []⟩] ∧
      events.filter isTextEvent = [DecEvent.pubText (Json.str "hello")] ∧
      res.text = Json.str "hello" :=
  single_complete_response_frame c1Line.data ⟨Json.arr [], Json.arr []⟩
    (Json.obj [("type", Json.str "response"), ("content", Json.str c1Doc)])
    (by decide) (by decide) (by decide) (by decide) (by decide)

end CC

namespace CC

/-- Counterexample to C2 as stated: on the accumulated buffer
`\x7b"response": "` the full parse fails and the regex pattern matches —
with an empty captured body — yet the decoder publishes nothing, because
the source guards the publish with the truthiness of `match[1]` and the
empty string is falsy.  The claim says the extracted body is published
whenever the pattern matches. -/
theorem regex_fallback_empty_capture_counterexample :
    jsonParse c2EmptyAcc.data = none ∧
    extractResponse c2EmptyAcc.data = some [] ∧
    unescapeBody [] = [] ∧
    (applyResponseFrame (initialState ⟨Json.arr [], Json.arr []⟩) c2EmptyAcc).2 = [] := by
  decide

/-- C2 (amended): when a `response` frame's appended content leaves the
accumulated buffer unparseable, the decoder publishes exactly the
unescaped regex capture when the pattern matches with a non-empty body,
and nothing when the pattern does not match or captures the empty
string.  In particular `\x7b"respon` publishes nothing and
`\x7b"response": "partial tex` publishes the text `partial tex`. -/
theorem regex_fallback_extraction (st : DecState) (line : List Char) (data : Json)
    (hparse : jsonParse line = some data)
    (htype : getProp data "type" = some (Json.str "response"))
    (hfail : jsonParse
      (st.accumulated ++ (jsContentText (getProp data "content")).data) = none) :
    (processLine st line).2 =
      (match extractResponse
          (st.accumulated ++ (jsContentText (getProp data "content")).data) with
       | some body =>
           if body.isEmpty then []
           else [DecEvent.pubText (Json.str (String.mk (unescapeBody body)))]
       | none => []) ∧
    (applyResponseFrame (initialState ⟨Json.arr [], Json.arr []⟩) c2Respon).2 = [] ∧
    (applyResponseFrame (initialState ⟨Json.arr [], Json.arr []⟩) c2Partial).2 =
      [DecEvent.pubText (Json.str "partial tex")] := by
  refine ⟨?_, by decide, by decide⟩
  rw [processLine_response hparse htype]
  unfold applyResponseFrame
  simp only
  rw [hfail]
  unfold applyFallback
  simp only
  rcases hext : extractResponse
      (st.accumulated ++ (jsContentText (getProp data "content")).data) with _ | body
  · simp
  · by_cases hb : body.isEmpty
    · simp [hb]
    · simp [hb]

/-- Witness for C2's amended statement at the `partial tex` frame. -/
theorem regex_fallback_extraction_witness :
    (processLine (initialState ⟨Json.arr [], Json.arr []⟩)
        "\x7b\"type\":\"response\",\"content\":\"\x7b\\\"response\\\": \\\"partial tex\"\x7d".data).2 =
      (match extractResponse
          ((initialState ⟨Json.arr [], Json.arr []⟩).accumulated ++
            (jsContentText (getProp
              (Json.obj [("type", Json.str "response"),
                ("content", Json.str c2Partial)]) "content")).data) with
       | some body =>
           if body.isEmpty then []
           else [DecEvent.pubText (Json.str (String.mk (unescapeBody body)))]
       | none => []) ∧
    (applyResponseFrame (initialState ⟨Json.arr [], Json.arr []⟩) c2Respon).2 = [] ∧
    (applyResponseFrame (initialState ⟨Json.arr [], Json.arr []⟩) c2Partial).2 =
      [DecEvent.pubText (Json.str "partial tex")] :=
  regex_fallback_extraction (initialState ⟨Json.arr [], Json.arr []⟩)
    "\x7b\"type\":\"response\",\"content\":\"\x7b\\\"response\\\": \\\"partial tex\"\x7d".data
    (Json.obj [("type", Json.str "response"), ("content", Json.str c2Partial)])
    (by decide) (by decide) (by decide)

end CC

namespace CC

/-- Counterexample to C3 as stated: with previously known images
`["old"]` in the store, a successfully parsed buffer whose metadata has
non-empty citations and no images field publishes a metadata update with
the empty image list — the citations branch passes
`metadata.images || []`, the parsed frame's images, not the images
currently known, so previously known images are not preserved. -/
theorem citations_update_clears_images_counterexample :
    (applyResponseFrame (initialState ⟨Json.arr [], Json.arr [Json.str "old"]⟩) c3Doc).2 =
      [DecEvent.pubMeta ⟨Json.arr [Json.str "a"], Json.arr []⟩] ∧
    (applyResponseFrame (initialState ⟨Json.arr [],
        Json.arr [Json.str "old"]⟩) c3Doc).1.store.images = Json.arr [] ∧
    Json.arr [] ≠ Json.arr [Json.str "old"] := by
  decide

/-- C3 (amended): whenever the accumulated buffer parses and
`metadata.citations` is present, truthy and of positive length, the
decoder's first published update carries those citations together with
the parsed frame's own `metadata.images`, defaulted to the empty list
when that field is absent or falsy (`metadata.images || []`) — it does
not preserve the previously known images. -/
theorem citations_update_uses_frame_images (st : DecState) (line : List Char)
    (data jr m c : Json)
    (hparse : jsonParse line = some data)
    (htype : getProp data "type" = some (Json.str "response"))
    (hdoc : jsonParse
      (st.accumulated ++ (jsContentText (getProp data "content")).data) = some jr)
    (hmeta : getProp jr "metadata" = some m)
    (htm : jsTruthy m = true)
    (hcit : getProp m "citations" = some c)
    (hguard : jsTruthyWithLength (some c) = true) :
    ∃ rest, (processLine st line).2 =
      DecEvent.pubMeta ⟨c, jsOrElse (getProp m "images") (Json.arr [])⟩ :: rest := by
  rw [processLine_response hparse htype]
  unfold applyResponseFrame
  simp only
  rw [hdoc]
  simp only [applyParsedDoc, applyMetadata, hmeta, htm, if_true, citationsStep, hcit,
    hguard]
  exact ⟨_, rfl⟩

/-- Witness for C3's amended statement: the counterexample scenario,
where the frame has no images field. -/
theorem citations_update_uses_frame_images_witness :
    ∃ rest, (processLine (initialState ⟨Json.arr [], Json.arr [Json.str "old"]⟩)
        "\x7b\"type\":\"response\",\"content\":\"\x7b\\\"metadata\\\":\x7b\\\"citations\\\":[\\\"a\\\"]\x7d\x7d\"\x7d".data).2 =
      DecEvent.pubMeta ⟨Json.arr [Json.str "a"],
        jsOrElse (getProp (Json.obj [("citations", Json.arr [Json.str "a"])]) "images")
          (Json.arr [])⟩ :: rest :=
  citations_update_uses_frame_images
    (initialState ⟨Json.arr [], Json.arr [Json.str "old"]⟩)
    "\x7b\"type\":\"response\",\"content\":\"\x7b\\\"metadata\\\":\x7b\\\"citations\\\":[\\\"a\\\"]\x7d\x7d\"\x7d".data
    (Json.obj [("type", Json.str "response"), ("content", Json.str c3Doc)])
    (Json.obj [("metadata", Json.obj [("citations", Json.arr [Json.str "a"])])])
    (Json.obj [("citations", Json.arr [Json.str "a"])])
    (Json.arr [Json.str "a"])
    (by decide) (by decide) (by decide) (by decide) (by decide) (by decide) (by decide)

end CC

namespace CC

/-- C5: the decoder errors exactly when the body's reader cannot be
obtained, and then before any frame is consumed; with a reader, every
chunk sequence completes normally (the functions are total); a line that
is not valid top-level JSON is skipped with a logged warning and changes
nothing; and a frame whose appended content leaves the buffer
unparseable with no regex match publishes nothing and only grows the
buffer. -/
theorem stream_error_only_reader (store0 : MetadataRec) :
    handleStreamingResponse none store0 = Except.error "Failed to get reader" ∧
    (∀ chunks, ∃ res events,
      handleStreamingResponse (some chunks) store0 = Except.ok (res, events)) ∧
    (∀ (st : DecState) (line : List Char), jsonParse line = none →
      processLine st line = (st, [DecEvent.warn])) ∧
    (∀ (st : DecState) (line : List Char) (data : Json),
      jsonParse line = some data →
      getProp data "type" = some (Json.str "response") →
      jsonParse (st.accumulated ++ (jsContentText (getProp data "content")).data) = none →
      extractResponse
        (st.accumulated ++ (jsContentText (getProp data "content")).data) = none →
      processLine st line =
        ({ st with accumulated :=
            st.accumulated ++ (jsContentText (getProp data "content")).data }, [])) := by
  refine ⟨rfl, ?_, ?_, ?_⟩
  · intro chunks
    exact ⟨_, _, rfl⟩
  · intro st line hnone
    unfold processLine
    rw [hnone]
  · intro st line data hparse htype hfail hnomatch
    rw [processLine_response hparse htype]
    unfold applyResponseFrame
    simp only
    rw [hfail]
    unfold applyFallback
    simp only
    rw [hnomatch]

/-- Witness for C5 at a concrete store, the unparseable line `garbage`,
and the mid-stream truncation `\x7b"respon`. -/
theorem stream_error_only_reader_witness :
    handleStreamingResponse none ⟨Json.arr [], Json.arr []⟩ =
      Except.error "Failed to get reader" ∧
    (∃ res events, handleStreamingResponse (some ["hi".data]) ⟨Json.arr [], Json.arr []⟩ =
      Except.ok (res, events)) ∧
    processLine (initialState ⟨Json.arr [], Json.arr []⟩) "garbage".data =
      (initialState ⟨Json.arr [], Json.arr []⟩, [DecEvent.warn]) ∧
    processLine (initialState ⟨Json.arr [], Json.arr []⟩)
        "\x7b\"type\":\"response\",\"content\":\"\x7b\\\"respon\"\x7d".data =
      ({ initialState ⟨Json.arr [], Json.arr []⟩ with accumulated := c2Respon.data }, []) := by
  refine ⟨(stream_error_only_reader ⟨Json.arr [], Json.arr []⟩).1,
    (stream_error_only_reader ⟨Json.arr [], Json.arr []⟩).2.1 ["hi".data], ?_, ?_⟩
  · exact (stream_error_only_reader ⟨Json.arr [], Json.arr []⟩).2.2.1
      (initialState ⟨Json.arr [], Json.arr []⟩) "garbage".data (by decide)
  · have h := (stream_error_only_reader ⟨Json.arr [], Json.arr []⟩).2.2.2
      (initialState ⟨Json.arr [], Json.arr []⟩)
      "\x7b\"type\":\"response\",\"content\":\"\x7b\\\"respon\"\x7d".data
      (Json.obj [("type", Json.str "response"), ("content", Json.str c2Respon)])
      (by decide) (by decide) (by decide) (by decide)
    exact h.trans (by decide)

end CC

namespace CC

theorem imagesStep_citations (st : DecState) (m : Json) :
    (imagesStep st m).1.store.citations = st.store.citations := by
  unfold imagesStep
  split
  · split
    · rfl
    · rfl
  · rfl

theorem imagesStep_accumulated (st : DecState) (m : Json) :
    (imagesStep st m).1.accumulated = st.accumulated := by
  unfold imagesStep
  split
  · split
    · rfl
    · rfl
  · rfl

theorem citationsStep_accumulated (st : DecState) (m : Json) :
    (citationsStep st m).1.accumulated = st.accumulated := by
  unfold citationsStep
  split
  · split
    · rfl
    · rfl
  · rfl

theorem applyResponse_store (st : DecState) (jr : Json) :
    (applyResponse st jr).1.store = st.store := by
  unfold applyResponse
  split
  · split
    · rfl
    · rfl
  · rfl

theorem applyResponse_accumulated (st : DecState) (jr : Json) :
    (applyResponse st jr).1.accumulated = st.accumulated := by
  unfold applyResponse
  split
  · split
    · rfl
    · rfl
  · rfl

theorem applyResponse_no_meta (st : DecState) (jr : Json) :
    ∀ m', DecEvent.pubMeta m' ∉ (applyResponse st jr).2 := by
  intro m'
  unfold applyResponse
  split
  · split
    · simp
    · simp
  · simp

theorem applyParsedDoc_accumulated (st : DecState) (jr : Json) :
    (applyParsedDoc st jr).1.accumulated = st.accumulated := by
  unfold applyParsedDoc applyMetadata
  rw [applyResponse_accumulated]
  split
  · split
    · rw [imagesStep_accumulated, citationsStep_accumulated]
    · rfl
  · rfl

end CC

namespace CC

theorem nonEmptyListVal_arr {l : List Json} (h : l ≠ []) :
    nonEmptyListVal (Json.arr l) := h

/-- A metadata publish with a non-empty image list certifies that the
parsed document's metadata carries a non-empty image list. -/
theorem goodDoc_of_pubMeta {st : DecState} {jr : Json} {m' : MetadataRec}
    (hmem : DecEvent.pubMeta m' ∈ (applyParsedDoc st jr).2)
    (hne : nonEmptyListVal m'.images) : GoodImagesDoc jr := by
  unfold applyParsedDoc at hmem
  simp only [List.mem_append] at hmem
  rcases hmem with hmem | hmem
  on_goal 2 => exact absurd hmem (applyResponse_no_meta _ _ m')
  unfold applyMetadata at hmem
  rcases hmd : getProp jr "metadata" with _ | m
  · rw [hmd] at hmem
    simp at hmem
  · rw [hmd] at hmem
    simp only at hmem
    by_cases htm : jsTruthy m = true
    · simp only [htm, if_true, List.mem_append] at hmem
      rcases hmem with hmem | hmem
      · -- citations branch
        unfold citationsStep at hmem
        rcases hct : getProp m "citations" with _ | c
        · rw [hct] at hmem
          split at hmem
          · simp at hmem
          · simp at hmem
        · rw [hct] at hmem
          split at hmem
          · simp only [List.mem_singleton, DecEvent.pubMeta.injEq] at hmem
            subst hmem
            rcases him : getProp m "images" with _ | j
            · rw [him] at hne
              simp [jsOrElse, nonEmptyListVal] at hne
            · rw [him] at hne
              unfold jsOrElse at hne
              by_cases htj : jsTruthy j = true
              · simp only [htj, if_true] at hne
                rcases j with _ | b | lex | s | l | flds <;>
                  simp [nonEmptyListVal] at hne ⊢
                exact ⟨m, l, hmd, htm, him, hne⟩
              · simp [htj, nonEmptyListVal] at hne
          · simp at hmem
      · -- images branch
        unfold imagesStep at hmem
        rcases him : getProp m "images" with _ | j
        · rw [him] at hmem
          split at hmem
          · simp at hmem
          · simp at hmem
        · rw [him] at hmem
          split at hmem
          · simp only [List.mem_singleton, DecEvent.pubMeta.injEq] at hmem
            subst hmem
            rcases j with _ | b | lex | s | l | flds <;>
              simp [nonEmptyListVal] at hne
            exact ⟨m, l, hmd, htm, him, hne⟩
          · simp at hmem
    · simp [htm] at hmem

end CC

namespace CC

/-- Conversely, on a document whose metadata carries a non-empty image
list, every metadata publish carries a non-empty image list. -/
theorem pubMeta_images_of_goodDoc {st : DecState} {jr : Json} {m' : MetadataRec}
    (hgood : GoodImagesDoc jr)
    (hmem : DecEvent.pubMeta m' ∈ (applyParsedDoc st jr).2) :
    nonEmptyListVal m'.images := by
  obtain ⟨m, l, hmd, htm, him, hl⟩ := hgood
  unfold applyParsedDoc at hmem
  simp only [List.mem_append] at hmem
  rcases hmem with hmem | hmem
  on_goal 2 => exact absurd hmem (applyResponse_no_meta _ _ m')
  unfold applyMetadata at hmem
  rw [hmd] at hmem
  simp only [htm, if_true, List.mem_append] at hmem
  rcases hmem with hmem | hmem
  · unfold citationsStep at hmem
    rcases hct : getProp m "citations" with _ | c
    · rw [hct] at hmem
      split at hmem
      · simp at hmem
      · simp at hmem
    · rw [hct] at hmem
      split at hmem
      · simp only [List.mem_singleton, DecEvent.pubMeta.injEq] at hmem
        subst hmem
        simp only [him, jsOrElse, jsTruthy, if_true]
        exact hl
      · simp at hmem
  · unfold imagesStep at hmem
    rw [him] at hmem
    split at hmem
    · simp only [List.mem_singleton, DecEvent.pubMeta.injEq] at hmem
      subst hmem
      exact hl
    · simp at hmem

/-- On such a document the images branch always fires, so the store ends
the step with a non-empty image list. -/
theorem store_images_of_goodDoc {st : DecState} {jr : Json}
    (hgood : GoodImagesDoc jr) :
    nonEmptyListVal ((applyParsedDoc st jr).1.store.images) := by
  obtain ⟨m, l, hmd, htm, him, hl⟩ := hgood
  unfold applyParsedDoc
  rw [applyResponse_store]
  unfold applyMetadata
  rw [hmd]
  simp only [htm, if_true]
  unfold imagesStep
  rw [him]
  rw [if_pos (by simp [jsTruthyWithLength, jsTruthy, jsLengthPos, List.length_pos, hl])]
  exact hl

end CC

namespace CC

theorem applyFallback_no_meta (st : DecState) :
    ∀ m', DecEvent.pubMeta m' ∉ (applyFallback st).2 := by
  intro m'
  unfold applyFallback
  split
  · split
    · simp
    · simp
  · simp

theorem applyFallback_store (st : DecState) : (applyFallback st).1.store = st.store := by
  unfold applyFallback
  split
  · split
    · rfl
    · rfl
  · rfl

theorem applyFallback_accumulated (st : DecState) :
    (applyFallback st).1.accumulated = st.accumulated := by
  unfold applyFallback
  split
  · split
    · rfl
    · rfl
  · rfl

/-- A metadata publish with non-empty images puts the decoder into the
latched state. -/
theorem imagesLatch_establish {st : DecState} {line : List Char} {m' : MetadataRec}
    (hmem : DecEvent.pubMeta m' ∈ (processLine st line).2)
    (hne : nonEmptyListVal m'.images) :
    ImagesLatched (processLine st line).1 := by
  unfold processLine at hmem ⊢
  rcases hp : jsonParse line with _ | data
  · rw [hp] at hmem
    simp at hmem
  · rw [hp] at hmem
    simp only at hmem ⊢
    by_cases hnull : data = Json.null
    · simp only [hnull, if_true] at hmem
      simp at hmem
    · simp only [hnull, if_false] at hmem ⊢
      by_cases htc : getProp data "type" = some (Json.str "tool_call")
      · simp only [htc, if_true] at hmem
        simp at hmem
      · simp only [htc, if_false] at hmem ⊢
        by_cases hresp : getProp data "type" = some (Json.str "response")
        · simp only [hresp, if_true] at hmem ⊢
          unfold applyResponseFrame at hmem ⊢
          simp only at hmem ⊢
          rcases hacc : jsonParse
              (st.accumulated ++ (jsContentText (getProp data "content")).data) with _ | jr
          · rw [hacc] at hmem
            simp only at hmem
            exact absurd hmem (applyFallback_no_meta _ m')
          · rw [hacc] at hmem
            simp only at hmem ⊢
            have hgood := goodDoc_of_pubMeta hmem hne
            obtain ⟨m, l, hmd, htm, him, hl⟩ := hgood
            obtain ⟨flds, rfl⟩ := getProp_some_obj hmd
            constructor
            · exact store_images_of_goodDoc ⟨m, l, hmd, htm, him, hl⟩
            · intro ext w hw
              rw [applyParsedDoc_accumulated] at hw
              simp only at hw
              have := jsonParse_append_obj hacc hw
              subst this
              exact ⟨m, l, hmd, htm, him, hl⟩
        · simp only [hresp, if_false] at hmem
          simp at hmem

end CC

namespace CC

theorem imagesLatch_step {s : DecState} (hJ : ImagesLatched s) (line : List Char) :
    ImagesLatched (processLine s line).1 ∧
    ∀ m'', DecEvent.pubMeta m'' ∈ (processLine s line).2 → nonEmptyListVal m''.images := by
  obtain ⟨hst, hfut⟩ := hJ
  unfold processLine
  rcases hp : jsonParse line with _ | data
  · exact ⟨⟨hst, hfut⟩, by simp⟩
  · simp only
    by_cases hnull : data = Json.null
    · simp only [hnull, if_true]
      exact ⟨⟨hst, hfut⟩, by simp⟩
    · simp only [hnull, if_false]
      by_cases htc : getProp data "type" = some (Json.str "tool_call")
      · simp only [htc, if_true]
        exact ⟨⟨hst, hfut⟩, by simp⟩
      · simp only [htc, if_false]
        by_cases hresp : getProp data "type" = some (Json.str "response")
        · simp only [hresp, if_true]
          unfold applyResponseFrame
          simp only
          rcases hacc : jsonParse
              (s.accumulated ++ (jsContentText (getProp data "content")).data) with _ | jr
          · refine ⟨⟨?_, ?_⟩, ?_⟩
            · rw [applyFallback_store]
              exact hst
            · intro ext w hw
              rw [applyFallback_accumulated] at hw
              simp only at hw
              rw [List.append_assoc] at hw
              exact hfut _ _ hw
            · intro m'' hmem
              exact absurd hmem (applyFallback_no_meta _ m'')
          · have hgood : GoodImagesDoc jr := hfut _ _ hacc
            refine ⟨⟨store_images_of_goodDoc hgood, ?_⟩, ?_⟩
            · intro ext w hw
              rw [applyParsedDoc_accumulated] at hw
              simp only at hw
              rw [List.append_assoc] at hw
              exact hfut _ _ hw
            · intro m'' hmem
              exact pubMeta_images_of_goodDoc hgood hmem
        · simp only [hresp, if_false]
          exact ⟨⟨hst, hfut⟩, by simp⟩

theorem foldl_events_shift {β : Type} (f : DecState → β → DecState × List DecEvent) :
    ∀ (xs : List β) (s : DecState) (evs0 : List DecEvent),
      xs.foldl (fun p x => ((f p.1 x).1, p.2 ++ (f p.1 x).2)) (s, evs0) =
        ((xs.foldl (fun p x => ((f p.1 x).1, p.2 ++ (f p.1 x).2)) (s, [])).1,
         evs0 ++ (xs.foldl (fun p x => ((f p.1 x).1, p.2 ++ (f p.1 x).2)) (s, [])).2) := by
  intro xs
  induction xs with
  | nil => intro s evs0; simp
  | cons x xs ih =>
      intro s evs0
      simp only [List.foldl_cons, List.nil_append]
      rw [ih ((f s x).1) (evs0 ++ (f s x).2), ih ((f s x).1) ((f s x).2)]
      simp [List.append_assoc]

theorem processLines_cons (s : DecState) (l : List Char) (ls : List (List Char)) :
    processLines s (l :: ls) =
      ((processLines (processLine s l).1 ls).1,
       (processLine s l).2 ++ (processLines (processLine s l).1 ls).2) := by
  show (l :: ls).foldl
      (fun p line => ((processLine p.1 line).1, p.2 ++ (processLine p.1 line).2)) (s, []) = _
  simp only [List.foldl_cons, List.nil_append]
  exact foldl_events_shift processLine ls (processLine s l).1 (processLine s l).2

theorem runChunks_cons (s : DecState) (c : List Char) (cs : List (List Char)) :
    runChunks s (c :: cs) =
      ((runChunks (processChunk s c).1 cs).1,
       (processChunk s c).2 ++ (runChunks (processChunk s c).1 cs).2) := by
  show (c :: cs).foldl
      (fun p x => ((processChunk p.1 x).1, p.2 ++ (processChunk p.1 x).2)) (s, []) = _
  simp only [List.foldl_cons, List.nil_append]
  exact foldl_events_shift processChunk cs (processChunk s c).1 (processChunk s c).2

theorem imagesLatch_runLines {s : DecState} (hJ : ImagesLatched s)
    (lines : List (List Char)) :
    ImagesLatched (processLines s lines).1 ∧
    ∀ m'', DecEvent.pubMeta m'' ∈ (processLines s lines).2 →
      nonEmptyListVal m''.images := by
  induction lines generalizing s with
  | nil => exact ⟨hJ, by simp [processLines]⟩
  | cons l ls ih =>
      rw [processLines_cons]
      obtain ⟨hJ1, hev1⟩ := imagesLatch_step hJ l
      obtain ⟨hJ2, hev2⟩ := ih hJ1
      refine ⟨hJ2, fun m'' hmem => ?_⟩
      simp only [List.mem_append] at hmem
      rcases hmem with h | h
      · exact hev1 m'' h
      · exact hev2 m'' h

theorem imagesLatch_runChunks {s : DecState} (hJ : ImagesLatched s)
    (chunks : List (List Char)) :
    ImagesLatched (runChunks s chunks).1 ∧
    ∀ m'', DecEvent.pubMeta m'' ∈ (runChunks s chunks).2 →
      nonEmptyListVal m''.images := by
  induction chunks generalizing s with
  | nil => exact ⟨hJ, by simp [runChunks]⟩
  | cons c cs ih =>
      rw [runChunks_cons]
      obtain ⟨hJ1, hev1⟩ := imagesLatch_runLines hJ ((splitOnNl c).filter jsTrimNonempty)
      obtain ⟨hJ2, hev2⟩ := ih hJ1
      refine ⟨hJ2, fun m'' hmem => ?_⟩
      simp only [List.mem_append] at hmem
      rcases hmem with h | h
      · exact hev1 m'' h
      · exact hev2 m'' h

end CC

namespace CC

/-- C4: non-retraction latch.  (i) A frame whose parsed
`metadata.citations` is the empty list leaves the published citations
unchanged; (ii) a frame with a non-empty parsed citation list replaces
them; (iii) once any frame publishes a metadata update whose image list
is non-empty, every later metadata publish of the session carries a
non-empty image list and the store's image list stays non-empty — an
empty list never overwrites it. -/
theorem metadata_non_retraction :
    (∀ (st : DecState) (line : List Char) (data jr m : Json),
      jsonParse line = some data →
      getProp data "type" = some (Json.str "response") →
      jsonParse (st.accumulated ++ (jsContentText (getProp data "content")).data) =
        some jr →
      getProp jr "metadata" = some m → jsTruthy m = true →
      getProp m "citations" = some (Json.arr []) →
      (processLine st line).1.store.citations = st.store.citations) ∧
    (∀ (st : DecState) (line : List Char) (data jr m : Json) (l : List Json),
      jsonParse line = some data →
      getProp data "type" = some (Json.str "response") →
      jsonParse (st.accumulated ++ (jsContentText (getProp data "content")).data) =
        some jr →
      getProp jr "metadata" = some m → jsTruthy m = true →
      getProp m "citations" = some (Json.arr l) → l ≠ [] →
      (processLine st line).1.store.citations = Json.arr l) ∧
    (∀ (st : DecState) (line : List Char) (m' : MetadataRec),
      DecEvent.pubMeta m' ∈ (processLine st line).2 → nonEmptyListVal m'.images →
      ∀ chunks : List (List Char),
        nonEmptyListVal ((runChunks (processLine st line).1 chunks).1.store.images) ∧
        ∀ m'', DecEvent.pubMeta m'' ∈ (runChunks (processLine st line).1 chunks).2 →
          nonEmptyListVal m''.images) := by
  refine ⟨?_, ?_, ?_⟩
  · intro st line data jr m hparse htype hdoc hmeta htm hcit
    rw [processLine_response hparse htype]
    unfold applyResponseFrame
    simp only
    rw [hdoc]
    unfold applyParsedDoc
    simp only
    rw [applyResponse_store]
    unfold applyMetadata
    rw [hmeta]
    simp only [htm, if_true]
    rw [imagesStep_citations]
    unfold citationsStep
    rw [hcit]
    rw [if_neg (by decide)]
  · intro st line data jr m l hparse htype hdoc hmeta htm hcit hl
    rw [processLine_response hparse htype]
    unfold applyResponseFrame
    simp only
    rw [hdoc]
    unfold applyParsedDoc
    simp only
    rw [applyResponse_store]
    unfold applyMetadata
    rw [hmeta]
    simp only [htm, if_true]
    rw [imagesStep_citations]
    unfold citationsStep
    rw [hcit]
    rw [if_pos (by simp [jsTruthyWithLength, jsTruthy, jsLengthPos, List.length_pos, hl])]
  · intro st line m' hmem hne chunks
    have hJ := imagesLatch_establish hmem hne
    obtain ⟨hJ2, hev⟩ := imagesLatch_runChunks hJ chunks
    exact ⟨hJ2.1, hev⟩

end CC

namespace CC


/-- Witness for C4: with citations `[c0]` already published, the
empty-citations frame leaves them unchanged; the `[a]` frame replaces
them; after the images frame publishes `[i]`, a further garbage chunk
leaves the store's images non-empty and every published metadata update
of the continued run keeps a non-empty image list. -/
theorem metadata_non_retraction_witness :
    ((processLine (initialState ⟨Json.arr [Json.str "c0"], Json.arr []⟩)
        c4EmptyLine.data).1.store.citations =
      (initialState ⟨Json.arr [Json.str "c0"], Json.arr []⟩).store.citations) ∧
    ((processLine (initialState ⟨Json.arr [], Json.arr []⟩)
        c4RepLine.data).1.store.citations = Json.arr [Json.str "a"]) ∧
    (nonEmptyListVal
        ((runChunks (processLine (initialState ⟨Json.arr [], Json.arr []⟩)
            c4ImgLine.data).1 [("zzz").data]).1.store.images) ∧
      ∀ m'', DecEvent.pubMeta m'' ∈
          (runChunks (processLine (initialState ⟨Json.arr [], Json.arr []⟩)
            c4ImgLine.data).1 [("zzz").data]).2 →
        nonEmptyListVal m''.images) := by
  refine ⟨?_, ?_, ?_⟩
  · exact metadata_non_retraction.1 _ _
      (Json.obj [("type", Json.str "response"), ("content", Json.str c4EmptyDoc)])
      (Json.obj [("metadata", Json.obj [("citations", Json.arr [])])])
      (Json.obj [("citations", Json.arr [])])
      (by decide) (by decide) (by decide) (by decide) (by decide) (by decide)
  · exact metadata_non_retraction.2.1 _ _
      (Json.obj [("type", Json.str "response"), ("content", Json.str c3Doc)])
      (Json.obj [("metadata", Json.obj [("citations", Json.arr [Json.str "a"])])])
      (Json.obj [("citations", Json.arr [Json.str "a"])]) [Json.str "a"]
      (by decide) (by decide) (by decide) (by decide) (by decide) (by decide)
      (by decide)
  · exact metadata_non_retraction.2.2
      (initialState ⟨Json.arr [], Json.arr []⟩) (c4ImgLine.data)
      ⟨Json.arr [Json.str "a"], Json.arr [Json.str "i"]⟩
      (by decide) (by simp [nonEmptyListVal]) [("zzz").data]

end CC

namespace CC

/-- A line without a newline splits into itself alone. -/
theorem splitOnNl_no_nl {l : List Char} (h : '\n' ∉ l) : splitOnNl l = [l] := by
  induction l with
  | nil => rfl
  | cons c rest ih =>
      have hc : c ≠ '\n' := fun he => h (he ▸ List.mem_cons_self c rest)
      have hr : '\n' ∉ rest := fun hm => h (List.mem_cons_of_mem _ hm)
      simp only [splitOnNl, if_neg hc, ih hr]

/-- A newline-free chunk whose line is non-blank but unparseable is
skipped with one warning and no state change. -/
theorem processChunk_warn {st : DecState} {l : List Char}
    (hnl : '\n' ∉ l) (htrim : jsTrimNonempty l = true)
    (hparse : jsonParse l = none) :
    processChunk st l = (st, [DecEvent.warn]) := by
  simp [processChunk, splitOnNl_no_nl hnl, htrim, processLines, processLine, hparse]


/-- C10: no carry-over line buffer between reads.  When a top-level frame
is split across two reader chunks so that neither newline-free fragment
parses on its own, both fragments fail the top-level parse and are
skipped with a warning: the state — accumulated buffer, tool-call list
and store — is exactly as before, so the frame contributes nothing. -/
theorem split_frame_skipped (st : DecState) (a b : List Char) (v : Json)
    (hv : jsonParse (a ++ b) = some v) (hobj : v.isObj = true)
    (hb : ∃ c ∈ b, isJsonWs c = false)
    (hna : '\n' ∉ a) (hnb : '\n' ∉ b)
    (hta : jsTrimNonempty a = true) (htb : jsTrimNonempty b = true)
    (hpb : jsonParse b = none) :
    jsonParse a = none ∧
    runChunks st [a, b] = (st, [DecEvent.warn, DecEvent.warn]) := by
  have hpa : jsonParse a = none := jsonParse_prefix_none hv hobj hb
  refine ⟨hpa, ?_⟩
  have h1 : processChunk st a = (st, [DecEvent.warn]) := processChunk_warn hna hta hpa
  have h2 : processChunk st b = (st, [DecEvent.warn]) := processChunk_warn hnb htb hpb
  simp [runChunks, h1, h2]

/-- Witness for C10 at the concrete split of the frame
`\x7b"type":"response","content":"hi"\x7d` into `c10A ++ c10B`. -/
theorem split_frame_skipped_witness :
    jsonParse c10A.data = none ∧
    runChunks (initialState ⟨Json.arr [], Json.arr []⟩) [c10A.data, c10B.data] =
      (initialState ⟨Json.arr [], Json.arr []⟩, [DecEvent.warn, DecEvent.warn]) :=
  split_frame_skipped _ c10A.data c10B.data
    (Json.obj [("type", Json.str "response"), ("content", Json.str "hi")])
    (by decide) (by decide) (by decide) (by decide) (by decide) (by decide)
    (by decide) (by decide)

end CC
